import Mathlib

/-!
Shallow embedding of the Sudoku core of this repository
(`src/sudoku.py`, with the near-duplicate solver of `src/game.py`
embedded separately for the equivalence claim).

A board is a 9×9 grid of digits, `0` denoting an empty cell
(`np.ndarray` in the source, rows of digits here).  The in-place
mutation of the Python code becomes explicit state passing: the solver
returns its final board, the contents of the `solutions_list` argument
(`Option` models `None` versus a supplied list), and the shuffle
counter.  `random.shuffle` is modelled by an oracle `g : Nat → List Nat`
giving the shuffled digit list drawn at each call; theorems about the
randomized mode assume each draw is a permutation of `[1..9]`, which is
what `random.shuffle` guarantees.  The recursion is driven by a fuel
parameter; fuel `82` strictly exceeds the recursion depth (at most one
level per empty cell of a 9×9 board), and `solveSudoku_total` below
shows the out-of-fuel branch is unreachable there.
-/

namespace Sudoku

/-- A Sudoku board: rows of digits, `0` = empty cell. -/
abbrev Board := List (List Nat)

/-- Reading `board[r, c]` (out-of-range reads default to `0`;
the source only ever indexes inside the 9×9 array). -/
def cell (b : Board) (r c : Nat) : Nat := (b.getD r []).getD c 0

/-- Writing `board[r, c] = v`. -/
def setCell (b : Board) (r c v : Nat) : Board := b.set r ((b.getD r []).set c v)

/-- The board really is a 9×9 matrix (shape of the numpy arrays in the source). -/
def WF (b : Board) : Prop := b.length = 9 ∧ ∀ row ∈ b, row.length = 9

instance : DecidablePred WF := fun b => by unfold WF; infer_instance

/-- `list(range(1, 10))`, the candidate digits tried by the solver. -/
def Digits : List Nat := [1, 2, 3, 4, 5, 6, 7, 8, 9]

/-- All 81 coordinates in row-major order (the flattening order of
`np.where` and of the generator's cell enumeration). -/
def allCells : List (Nat × Nat) :=
  (List.range 9).flatMap (fun r => (List.range 9).map (fun c => (r, c)))

/-- `SudokuGame.find_empty_cell`: first cell equal to `0` in row-major
order (`np.where(board == 0)` lists indices in row-major order; the
function returns the first pair), or `None` when the board is full. -/
def find_empty_cell (b : Board) : Option (Nat × Nat) :=
  allCells.find? (fun p => cell b p.1 p.2 == 0)

/-- `board[row, :]` as a list (the actual row of the matrix). -/
def rowList (b : Board) (r : Nat) : List Nat := b.getD r []

/-- `board[:, col]` as a list. -/
def colList (b : Board) (c : Nat) : List Nat :=
  (List.range 9).map (fun r => cell b r c)

/-- `board[start_row : start_row + 3, start_col : start_col + 3]`
flattened in row-major order, with `start_row = 3 * (row // 3)` and
`start_col = 3 * (col // 3)`. -/
def blockList (b : Board) (r c : Nat) : List Nat :=
  (List.range 3).flatMap
    (fun i => (List.range 3).map (fun j => cell b (3 * (r / 3) + i) (3 * (c / 3) + j)))

/-- `SudokuGame.is_valid_move`: `num` appears in neither row `row`, nor
column `col`, nor the 3×3 block containing `(row, col)`. -/
def is_valid_move (b : Board) (row col num : Nat) : Bool :=
  if (rowList b row).contains num then false
  else if (colList b col).contains num then false
  else if (blockList b row col).contains num then false
  else true

/-- Number of empty cells among the 81 positions (used as the solver's
termination measure: each recursion level fills one empty cell). -/
def numEmpty (b : Board) : Nat :=
  (allCells.filter (fun p => cell b p.1 p.2 == 0)).length

/-- Result of one solver call: the returned boolean, the final board
(the in-place mutated array), the contents of `solutions_list`, and the
number of `random.shuffle` draws consumed so far. -/
structure SRes where
  ok : Bool
  board : Board
  sols : Option (List Board)
  k : Nat
deriving DecidableEq

/-- Oracle for `random.shuffle(nums)`: the list drawn at the `k`-th call. -/
def RNG := Nat → List Nat

/-- Every draw of the oracle is a permutation of `[1..9]` — exactly what
`random.shuffle` on `list(range(1, 10))` produces. -/
def GoodRNG (g : RNG) : Prop := ∀ k, (g k).Perm Digits

/-- `solutions_list.append(board.copy())`.  When `solutions_list` is
`None`, the Python code would raise (`find_all` without a list); the
embedding leaves the absent list absent, and every theorem below
restricts to the supplied case, which is the only one the repository
exercises. -/
def appendSol (sols : Option (List Board)) (b : Board) : Option (List Board) :=
  sols.map (fun l => l ++ [b])

/-- `len(solutions_list)` (only consulted when the list is supplied). -/
def solsLen (sols : Option (List Board)) : Nat := (sols.getD []).length

/-- Python truthiness of `solution_limit` (`None` and `0` are falsy). -/
def limitTruthy (limit : Option Nat) : Bool :=
  match limit with
  | none => false
  | some n => n != 0

/-- The `for num in nums` loop body of `SudokuGame.solve_sudoku`,
parameterized by the recursive call `rec` (the solver one fuel level
down).  Mirrors, per iteration: place `num` if legal, recurse, return
on success unless `find_all`, return once the solution limit is
reached (resetting the cell), otherwise reset the cell and try the
next candidate; `False` when the candidates are exhausted. -/
def solveLoop (rec : Board → Option (List Board) → Nat → Option SRes)
    (find_all : Bool) (limit : Option Nat) (row col : Nat) :
    Board → Option (List Board) → Nat → List Nat → Option SRes
  | board, sols, k, [] => some ⟨false, board, sols, k⟩
  | board, sols, k, num :: rest =>
    if is_valid_move board row col num then
      match rec (setCell board row col num) sols k with
      | none => none
      | some r =>
        if r.ok && !find_all then some ⟨true, r.board, r.sols, r.k⟩
        else if find_all && limitTruthy limit && limit.getD 0 ≤ solsLen r.sols then
          some ⟨true, setCell r.board row col 0, r.sols, r.k⟩
        else
          solveLoop rec find_all limit row col (setCell r.board row col 0) r.sols r.k rest
    else
      solveLoop rec find_all limit row col board sols k rest

/-- `SudokuGame.solve_sudoku` (src/sudoku.py).  `none` = out of fuel
(unreachable with fuel `> numEmpty board`, see `solveSudoku_total`). -/
def solveSudoku (g : RNG) :
    Nat → Board → Bool → Bool → Option (List Board) → Option Nat → Nat → Option SRes
  | 0, _, _, _, _, _, _ => none
  | fuel + 1, board, randomize, find_all, sols, limit, k =>
    match find_empty_cell board with
    | none => some ⟨true, board, if find_all then appendSol sols board else sols, k⟩
    | some (row, col) =>
      let nums := if randomize then g k else Digits
      let k1 := if randomize then k + 1 else k
      solveLoop (fun b s kk => solveSudoku g fuel b randomize find_all s limit kk)
        find_all limit row col board sols k1 nums

/-! ### Basic board lemmas -/

theorem getD_set_eq {α} (l : List α) {i : Nat} (h : i < l.length) (a d : α) :
    (l.set i a).getD i d = a := by
  rw [List.getD_eq_getElem?_getD, List.getElem?_set_self h]
  rfl

theorem getD_set_ne {α} (l : List α) {i j : Nat} (h : i ≠ j) (a d : α) :
    (l.set i a).getD j d = l.getD j d := by
  rw [List.getD_eq_getElem?_getD, List.getElem?_set_ne h, ← List.getD_eq_getElem?_getD]

theorem getD_of_length_le {α} {l : List α} {i : Nat} (h : l.length ≤ i) (d : α) :
    l.getD i d = d := by
  rw [List.getD_eq_getElem?_getD, List.getElem?_eq_none h]
  rfl

theorem set_getD_self {α} (l : List α) (i : Nat) (d : α) :
    l.set i (l.getD i d) = l := by
  rcases Nat.lt_or_ge i l.length with h | h
  · apply List.ext_getElem?
    intro n
    rw [List.getElem?_set]
    split
    · next heq =>
      subst heq
      simp [h, List.getD_eq_getElem _ _ h, List.getElem?_eq_getElem h]
    · rfl
  · exact List.set_eq_of_length_le h

theorem cell_of_length_le {b : Board} {r : Nat} (c : Nat) (h : b.length ≤ r) :
    cell b r c = 0 := by
  unfold cell
  rw [getD_of_length_le h]
  rfl

theorem setCell_of_length_le {b : Board} {r : Nat} (c v : Nat) (h : b.length ≤ r) :
    setCell b r c v = b := by
  unfold setCell
  exact List.set_eq_of_length_le h

theorem length_setCell (b : Board) (r c v : Nat) : (setCell b r c v).length = b.length :=
  List.length_set ..

theorem row_length {b : Board} (h : WF b) {r : Nat} (hr : r < 9) :
    (b.getD r []).length = 9 := by
  obtain ⟨hlen, hrow⟩ := h
  have hr' : r < b.length := by omega
  rw [List.getD_eq_getElem _ _ hr']
  exact hrow _ (List.getElem_mem hr')

theorem WF_setCell {b : Board} (h : WF b) (r c v : Nat) : WF (setCell b r c v) := by
  rcases Nat.lt_or_ge r b.length with hr | hr
  · obtain ⟨hlen, hrow⟩ := h
    refine ⟨by rw [length_setCell]; exact hlen, ?_⟩
    intro row hmem
    rcases List.mem_or_eq_of_mem_set hmem with hmem' | rfl
    · exact hrow _ hmem'
    · rw [List.length_set]
      exact hrow _ (by rw [List.getD_eq_getElem _ _ hr]; exact List.getElem_mem hr)
  · rw [setCell_of_length_le _ _ hr]
    exact h

theorem setCell_cell_self {b : Board} {r c : Nat} (v : Nat) (h : cell b r c = v) :
    setCell b r c v = b := by
  subst h
  unfold setCell cell
  rw [set_getD_self, set_getD_self]

theorem setCell_setCell {b : Board} (r c v w : Nat) :
    setCell (setCell b r c v) r c w = setCell b r c w := by
  rcases Nat.lt_or_ge r b.length with hr | hr
  · unfold setCell
    rw [getD_set_eq b hr, List.set_set, List.set_set]
  · rw [setCell_of_length_le (b := b) c v hr]

theorem setCell_restore {b : Board} {r c : Nat} (v w : Nat) (h : cell b r c = w) :
    setCell (setCell b r c v) r c w = b := by
  rw [setCell_setCell, setCell_cell_self _ h]

theorem cell_setCell {b : Board} (h : WF b) {r c : Nat} (hr : r < 9) (hc : c < 9)
    (v : Nat) (r' c' : Nat) :
    cell (setCell b r c v) r' c' = if r = r' ∧ c = c' then v else cell b r' c' := by
  have hlen := h.1
  have hrlen : r < b.length := by omega
  unfold cell setCell
  by_cases heq : r = r'
  · subst heq
    rw [getD_set_eq b hrlen]
    by_cases hceq : c = c'
    · subst hceq
      have hclen : c < (b.getD r []).length := by rw [row_length h hr]; omega
      rw [getD_set_eq _ hclen]
      simp
    · rw [getD_set_ne _ hceq]
      simp [hceq]
  · rw [getD_set_ne _ heq]
    simp [heq]

theorem cell_setCell_same {b : Board} (h : WF b) {r c : Nat} (hr : r < 9) (hc : c < 9)
    (v : Nat) : cell (setCell b r c v) r c = v := by
  rw [cell_setCell h hr hc]
  simp

theorem cell_setCell_other {b : Board} (h : WF b) {r c : Nat} (hr : r < 9) (hc : c < 9)
    (v : Nat) {r' c' : Nat} (hne : ¬(r = r' ∧ c = c')) :
    cell (setCell b r c v) r' c' = cell b r' c' := by
  rw [cell_setCell h hr hc]
  simp [hne]

/-! ### `allCells`, `numEmpty` -/

theorem mem_allCells {r c : Nat} : (r, c) ∈ allCells ↔ r < 9 ∧ c < 9 := by
  unfold allCells
  simp [List.mem_flatMap, List.mem_range]

theorem allCells_nodup : allCells.Nodup := by decide

theorem numEmpty_le (b : Board) : numEmpty b ≤ 81 := by
  have := List.length_filter_le (fun p => cell b p.1 p.2 == 0) allCells
  unfold numEmpty
  calc (allCells.filter (fun p => cell b p.1 p.2 == 0)).length ≤ allCells.length := this
  _ = 81 := by decide

theorem numEmpty_setCell {b : Board} (h : WF b) {r c : Nat} (hr : r < 9) (hc : c < 9)
    (hbc : cell b r c = 0) {v : Nat} (hv : v ≠ 0) :
    numEmpty (setCell b r c v) + 1 = numEmpty b := by
  have hmem : (r, c) ∈ allCells := mem_allCells.2 ⟨hr, hc⟩
  have hperm := List.perm_cons_erase hmem
  unfold numEmpty
  rw [← List.countP_eq_length_filter, ← List.countP_eq_length_filter,
    hperm.countP_eq (p := fun p => cell (setCell b r c v) p.1 p.2 == 0),
    hperm.countP_eq (p := fun p => cell b p.1 p.2 == 0),
    List.countP_cons, List.countP_cons]
  have h1 : (cell (setCell b r c v) r c == 0) = false := by
    rw [cell_setCell_same h hr hc]
    simpa using hv
  have h2 : (cell b r c == 0) = true := by simpa using hbc
  obtain ⟨hnotmem, -⟩ := List.nodup_cons.1 ((hperm.nodup_iff).1 allCells_nodup)
  simp [h1, h2]
  apply List.countP_congr
  intro x hx
  have hne : ¬(r = x.1 ∧ c = x.2) := by
    intro hh
    apply hnotmem
    have hx'' : x = (r, c) := by
      obtain ⟨x1, x2⟩ := x
      simp only [Prod.mk.injEq]
      exact ⟨hh.1.symm, hh.2.symm⟩
    rwa [hx''] at hx
  rw [cell_setCell_other h hr hc _ hne]

/-! ### `find_empty_cell` -/

/-- No empty cell anywhere on the 9×9 grid. -/
def Full (b : Board) : Prop := ∀ r, r < 9 → ∀ c, c < 9 → cell b r c ≠ 0

instance : DecidablePred Full := fun b => by unfold Full; infer_instance

theorem allCells_length : allCells.length = 81 := by decide

theorem allCells_getD : ∀ i, i < 81 → allCells.getD i (99, 99) = (i / 9, i % 9) := by decide

theorem find_empty_cell_none_iff {b : Board} : find_empty_cell b = none ↔ Full b := by
  unfold find_empty_cell Full
  rw [List.find?_eq_none]
  constructor
  · intro h r hr c hc hzero
    have := h (r, c) (mem_allCells.2 ⟨hr, hc⟩)
    simp [hzero] at this
  · intro h p hp
    obtain ⟨r, c⟩ := p
    have := h r (mem_allCells.1 hp).1 c (mem_allCells.1 hp).2
    simpa using this

theorem find?_some_index {α} {p : α → Bool} (d : α) :
    ∀ {l : List α} {a : α}, l.find? p = some a →
      ∃ i, i < l.length ∧ l.getD i d = a ∧ ∀ j, j < i → p (l.getD j d) = false
  | [], a, h => by simp [List.find?] at h
  | x :: xs, a, h => by
    rw [List.find?_cons] at h
    cases hx : p x with
    | true =>
      rw [hx] at h
      refine ⟨0, by simp, by simpa using h, by omega⟩
    | false =>
      rw [hx] at h
      obtain ⟨i, hi, hget, hfail⟩ := find?_some_index d h
      refine ⟨i + 1, by simp; omega, hget, ?_⟩
      intro j hj
      cases j with
      | zero => simpa using hx
      | succ j' => exact hfail j' (by omega)

theorem find_empty_cell_some {b : Board} {r c : Nat}
    (h : find_empty_cell b = some (r, c)) :
    r < 9 ∧ c < 9 ∧ cell b r c = 0 ∧
      ∀ r' c', r' < 9 → c' < 9 → 9 * r' + c' < 9 * r + c → cell b r' c' ≠ 0 := by
  have hmem := List.mem_of_find?_eq_some h
  have hp := List.find?_some h
  have hrc := mem_allCells.1 hmem
  have hcell : cell b r c = 0 := by simpa using hp
  refine ⟨hrc.1, hrc.2, hcell, ?_⟩
  obtain ⟨i, hi, hget, hfail⟩ := find?_some_index (99, 99) h
  rw [allCells_length] at hi
  have hidx : i = 9 * r + c := by
    have := allCells_getD i hi
    rw [hget] at this
    have h1 : r = i / 9 := congrArg Prod.fst this
    have h2 : c = i % 9 := congrArg Prod.snd this
    omega
  intro r' c' hr' hc' hlt
  have hj : 9 * r' + c' < i := by omega
  have hfa := hfail (9 * r' + c') hj
  have hgd : allCells.getD (9 * r' + c') (99, 99) = (r', c') := by
    have := allCells_getD (9 * r' + c') (by omega)
    have h1 : (9 * r' + c') / 9 = r' := by omega
    have h2 : (9 * r' + c') % 9 = c' := by omega
    rw [this, h1, h2]
  rw [hgd] at hfa
  simpa using hfa

/-! ### Consistency of a partial board -/

/-- Two positions constrain each other: same row, same column, or same
3×3 block. -/
def sameUnit (r1 c1 r2 c2 : Nat) : Prop :=
  r1 = r2 ∨ c1 = c2 ∨ (r1 / 3 = r2 / 3 ∧ c1 / 3 = c2 / 3)

instance (r1 c1 r2 c2 : Nat) : Decidable (sameUnit r1 c1 r2 c2) := by
  unfold sameUnit
  infer_instance

/-- The non-zero entries are mutually consistent — no two distinct cells
of a common row, column, or block hold the same digit — and every entry
is a digit `0–9` (the data model's `Digit`). -/
def ConsistentBoard (b : Board) : Prop :=
  (∀ r, r < 9 → ∀ c, c < 9 → cell b r c ≤ 9) ∧
  ∀ r1, r1 < 9 → ∀ c1, c1 < 9 → ∀ r2, r2 < 9 → ∀ c2, c2 < 9 →
    (r1, c1) ≠ (r2, c2) → sameUnit r1 c1 r2 c2 →
    cell b r1 c1 ≠ 0 → cell b r1 c1 ≠ cell b r2 c2

set_option synthInstance.maxSize 2048 in
instance : DecidablePred ConsistentBoard := fun b => by
  unfold ConsistentBoard sameUnit
  infer_instance

/-- `s` fills `b`: it keeps every given (non-zero cell) of `b`. -/
def Extends (s b : Board) : Prop :=
  ∀ r, r < 9 → ∀ c, c < 9 → cell b r c ≠ 0 → cell s r c = cell b r c

instance (s b : Board) : Decidable (Extends s b) := by
  unfold Extends
  infer_instance

/-- A completion of `b`: a full, consistent 9×9 board keeping all of
`b`'s givens (what the backtracking search enumerates). -/
def Completion (s b : Board) : Prop := WF s ∧ Full s ∧ ConsistentBoard s ∧ Extends s b

instance (s b : Board) : Decidable (Completion s b) := by
  unfold Completion
  infer_instance

theorem mem_Digits {d : Nat} : d ∈ Digits ↔ 1 ≤ d ∧ d ≤ 9 := by
  unfold Digits
  simp
  omega

theorem mem_rowList {b : Board} (h : WF b) {r : Nat} (hr : r < 9) {v : Nat} :
    v ∈ rowList b r ↔ ∃ c', c' < 9 ∧ cell b r c' = v := by
  unfold rowList
  rw [List.mem_iff_getElem]
  constructor
  · rintro ⟨n, hn, hget⟩
    rw [row_length h hr] at hn
    refine ⟨n, hn, ?_⟩
    unfold cell
    rw [List.getD_eq_getElem _ _ (by rw [row_length h hr]; omega)]
    exact hget
  · rintro ⟨c', hc', hcell⟩
    refine ⟨c', by rw [row_length h hr]; omega, ?_⟩
    unfold cell at hcell
    rwa [List.getD_eq_getElem _ _ (by rw [row_length h hr]; omega)] at hcell

theorem mem_colList {b : Board} {c : Nat} {v : Nat} :
    v ∈ colList b c ↔ ∃ r', r' < 9 ∧ cell b r' c = v := by
  unfold colList
  simp [List.mem_map, List.mem_range]

theorem mem_blockList {b : Board} {r c : Nat} {v : Nat} :
    v ∈ blockList b r c ↔
      ∃ i, i < 3 ∧ ∃ j, j < 3 ∧ cell b (3 * (r / 3) + i) (3 * (c / 3) + j) = v := by
  unfold blockList
  simp [List.mem_flatMap, List.mem_map, List.mem_range]

theorem is_valid_move_iff {b : Board} {row col num : Nat} :
    is_valid_move b row col num = true ↔
      num ∉ rowList b row ∧ num ∉ colList b col ∧ num ∉ blockList b row col := by
  unfold is_valid_move
  split
  · next hmem => simp_all
  · split
    · next hmem => simp_all
    · split
      · next hmem => simp_all
      · simp_all

/-- A legal digit placed on an empty in-range cell is never `0`: the row
still contains the `0` sitting at `(row, col)` itself. -/
theorem valid_num_ne_zero {b : Board} (h : WF b) {row col num : Nat}
    (hrow : row < 9) (hcol : col < 9) (hcell : cell b row col = 0)
    (hvalid : is_valid_move b row col num = true) : num ≠ 0 := by
  intro hz
  subst hz
  have := (is_valid_move_iff.1 hvalid).1
  exact this ((mem_rowList h hrow).2 ⟨col, hcol, hcell⟩)

theorem ConsistentBoard_setCell {b : Board} (hWF : WF b) (hcons : ConsistentBoard b)
    {row col num : Nat} (hrow : row < 9) (hcol : col < 9)
    (hcell : cell b row col = 0) (hnum9 : num ≤ 9)
    (hvalid : is_valid_move b row col num = true) :
    ConsistentBoard (setCell b row col num) := by
  obtain ⟨hvr, hvc, hvb⟩ := is_valid_move_iff.1 hvalid
  have hval : ∀ r' c', r' < 9 → c' < 9 → sameUnit row col r' c' →
      cell b r' c' ≠ num := by
    intro r' c' hr' hc' hunit heq
    rcases hunit with hu | hu | hu
    · exact hvr ((mem_rowList hWF hrow).2 ⟨c', hc', by rw [hu]; exact heq⟩)
    · exact hvc ((mem_colList).2 ⟨r', hr', by rw [hu]; exact heq⟩)
    · refine hvb ((mem_blockList).2 ⟨r' % 3, by omega, c' % 3, by omega, ?_⟩)
      have e1 : 3 * (row / 3) + r' % 3 = r' := by omega
      have e2 : 3 * (col / 3) + c' % 3 = c' := by omega
      rw [e1, e2]
      exact heq
  constructor
  · intro r hr c hc
    rw [cell_setCell hWF hrow hcol]
    split
    · exact hnum9
    · exact hcons.1 r hr c hc
  · intro r1 h1 c1 h2 r2 h3 c2 h4 hne hunit
    by_cases e1 : row = r1 ∧ col = c1
    · by_cases e2 : row = r2 ∧ col = c2
      · exfalso
        apply hne
        rw [← e1.1, ← e1.2, ← e2.1, ← e2.2]
      · rw [cell_setCell hWF hrow hcol, cell_setCell hWF hrow hcol, if_pos e1, if_neg e2]
        intro _ heq
        have hunit' : sameUnit row col r2 c2 := by
          rw [e1.1, e1.2]
          exact hunit
        exact hval r2 c2 h3 h4 hunit' heq.symm
    · by_cases e2 : row = r2 ∧ col = c2
      · rw [cell_setCell hWF hrow hcol, cell_setCell hWF hrow hcol, if_neg e1, if_pos e2]
        intro hnz heq
        have hunit' : sameUnit row col r1 c1 := by
          rw [e2.1, e2.2]
          rcases hunit with hu | hu | hu
          · exact Or.inl hu.symm
          · exact Or.inr (Or.inl hu.symm)
          · exact Or.inr (Or.inr ⟨hu.1.symm, hu.2.symm⟩)
        exact hval r1 c1 h1 h2 hunit' heq
      · rw [cell_setCell hWF hrow hcol, cell_setCell hWF hrow hcol, if_neg e1, if_neg e2]
        exact hcons.2 r1 h1 c1 h2 r2 h3 c2 h4 hne hunit

/-- Filling an empty cell preserves the givens relation downward. -/
theorem Extends_setCell_of {s b : Board} (hWF : WF b) {row col num : Nat}
    (hrow : row < 9) (hcol : col < 9) (hcell : cell b row col = 0)
    (hext : Extends s (setCell b row col num)) : Extends s b := by
  intro r hr c hc hnz
  have hne : ¬(row = r ∧ col = c) := by
    intro hh
    rw [hh.1, hh.2] at hcell
    exact hnz hcell
  have := hext r hr c hc (by rw [cell_setCell_other hWF hrow hcol _ hne]; exact hnz)
  rwa [cell_setCell_other hWF hrow hcol _ hne] at this

/-- A completion placing `num` at the chosen cell is a completion of the
board with `num` placed. -/
theorem Extends_setCell_to {s b : Board} (hWF : WF b) {row col num : Nat}
    (hrow : row < 9) (hcol : col < 9) (hnum : cell s row col = num)
    (hext : Extends s b) : Extends s (setCell b row col num) := by
  intro r hr c hc hnz
  by_cases hne : row = r ∧ col = c
  · obtain ⟨hhr, hhc⟩ := hne
    subst hhr
    subst hhc
    rw [cell_setCell_same hWF hrow hcol]
    exact hnum
  · rw [cell_setCell_other hWF hrow hcol _ hne] at hnz ⊢
    exact hext r hr c hc hnz

/-- The digit a completion of `b` holds at `b`'s empty cell `(row, col)`
is a digit `1–9` and a legal move on `b`. -/
theorem Completion_valid_move {s b : Board} (hWF : WF b) {row col : Nat}
    (hrow : row < 9) (hcol : col < 9) (hcell : cell b row col = 0)
    (hcomp : Completion s b) :
    cell s row col ∈ Digits ∧ is_valid_move b row col (cell s row col) = true := by
  obtain ⟨hsWF, hsFull, hsCons, hsExt⟩ := hcomp
  have hnz : cell s row col ≠ 0 := hsFull row hrow col hcol
  have h9 : cell s row col ≤ 9 := hsCons.1 row hrow col hcol
  refine ⟨mem_Digits.2 ⟨by omega, h9⟩, ?_⟩
  rw [is_valid_move_iff]
  refine ⟨?_, ?_, ?_⟩
  · intro hmem
    obtain ⟨c', hc', heq⟩ := (mem_rowList hWF hrow).1 hmem
    have hne : c' ≠ col := by
      intro hh
      rw [hh, hcell] at heq
      exact hnz heq.symm
    have hs' : cell s row c' = cell b row c' := hsExt row hrow c' hc' (by rw [heq]; exact hnz)
    exact hsCons.2 row hrow col hcol row hrow c' hc'
      (by simp [hne.symm]) (Or.inl rfl) hnz (by rw [hs', heq])
  · intro hmem
    obtain ⟨r', hr', heq⟩ := (mem_colList).1 hmem
    have hne : r' ≠ row := by
      intro hh
      rw [hh, hcell] at heq
      exact hnz heq.symm
    have hs' : cell s r' col = cell b r' col := hsExt r' hr' col hcol (by rw [heq]; exact hnz)
    exact hsCons.2 row hrow col hcol r' hr' col hcol
      (by simp [hne.symm]) (Or.inr (Or.inl rfl)) hnz (by rw [hs', heq])
  · intro hmem
    obtain ⟨i, hi, j, hj, heq⟩ := (mem_blockList).1 hmem
    set r' := 3 * (row / 3) + i with hr'def
    set c' := 3 * (col / 3) + j with hc'def
    have hr' : r' < 9 := by omega
    have hc' : c' < 9 := by omega
    have hne : ¬(r' = row ∧ c' = col) := by
      intro hh
      rw [hh.1, hh.2, hcell] at heq
      exact hnz heq.symm
    have hs' : cell s r' c' = cell b r' c' := hsExt r' hr' c' hc' (by rw [heq]; exact hnz)
    refine hsCons.2 row hrow col hcol r' hr' c' hc' ?_ ?_ hnz (by rw [hs', heq])
    · intro hh
      apply hne
      exact ⟨(congrArg Prod.fst hh).symm, (congrArg Prod.snd hh).symm⟩
    · exact Or.inr (Or.inr ⟨by omega, by omega⟩)

/-! ### Backtracking restores the board -/

theorem solveLoop_restore {rec : Board → Option (List Board) → Nat → Option SRes}
    {fa : Bool} {lim : Option Nat} {row col : Nat}
    (hrec : ∀ b s kk r, rec b s kk = some r →
      (r.ok = false → r.board = b) ∧ (fa = true → r.board = b)) :
    ∀ (nums : List Nat) (board : Board) (sols : Option (List Board)) (k : Nat) (r : SRes),
      cell board row col = 0 →
      solveLoop rec fa lim row col board sols k nums = some r →
      (r.ok = false → r.board = board) ∧ (fa = true → r.board = board)
  | [], board, sols, k, r, hcell, hres => by
    simp only [solveLoop] at hres
    obtain rfl : (⟨false, board, sols, k⟩ : SRes) = r := by injection hres
    exact ⟨fun _ => rfl, fun _ => rfl⟩
  | num :: rest, board, sols, k, r, hcell, hres => by
    simp only [solveLoop] at hres
    by_cases hv : is_valid_move board row col num = true
    · rw [if_pos hv] at hres
      cases hrr : rec (setCell board row col num) sols k with
      | none => simp [hrr] at hres
      | some rr =>
        simp only [hrr] at hres
        have hrec' := hrec _ _ _ _ hrr
        by_cases hok : (rr.ok && !fa) = true
        · rw [if_pos hok] at hres
          obtain rfl : (⟨true, rr.board, rr.sols, rr.k⟩ : SRes) = r := by injection hres
          refine ⟨by simp, ?_⟩
          intro hfa
          rw [hfa] at hok
          simp at hok
        · rw [if_neg hok] at hres
          have hreset : setCell rr.board row col 0 = board := by
            by_cases hfa : fa = true
            · rw [hrec'.2 hfa, setCell_restore _ _ hcell]
            · have hko : rr.ok = false := by
                cases hrro : rr.ok
                · rfl
                · exfalso
                  apply hok
                  rw [hrro]
                  simp at hfa
                  rw [hfa]
                  rfl
              rw [hrec'.1 hko, setCell_restore _ _ hcell]
          by_cases hlim : (fa && limitTruthy lim && decide (lim.getD 0 ≤ solsLen rr.sols)) = true
          · rw [if_pos hlim] at hres
            obtain rfl : (⟨true, setCell rr.board row col 0, rr.sols, rr.k⟩ : SRes) = r := by
              injection hres
            exact ⟨by simp, fun _ => hreset⟩
          · rw [if_neg hlim] at hres
            rw [hreset] at hres
            exact solveLoop_restore hrec rest board rr.sols rr.k r hcell hres
    · rw [if_neg hv] at hres
      exact solveLoop_restore hrec rest board sols k r hcell hres

/-- If the solver fails, the board is back to its original state; in
`find_all` mode the board is restored whatever the outcome. -/
theorem solve_restore (g : RNG) :
    ∀ (fuel : Nat) (b : Board) (rand fa : Bool) (sols : Option (List Board))
      (lim : Option Nat) (k : Nat) (r : SRes),
      solveSudoku g fuel b rand fa sols lim k = some r →
      (r.ok = false → r.board = b) ∧ (fa = true → r.board = b)
  | 0, b, rand, fa, sols, lim, k, r, hres => by simp [solveSudoku] at hres
  | fuel + 1, b, rand, fa, sols, lim, k, r, hres => by
    simp only [solveSudoku] at hres
    cases hfe : find_empty_cell b with
    | none =>
      rw [hfe] at hres
      obtain rfl : (⟨true, b, if fa then appendSol sols b else sols, k⟩ : SRes) = r := by
        injection hres
      exact ⟨by simp, fun _ => rfl⟩
    | some p =>
      obtain ⟨row, col⟩ := p
      rw [hfe] at hres
      have hcell : cell b row col = 0 := (find_empty_cell_some hfe).2.2.1
      exact solveLoop_restore (fun b' s' kk' r' h' => solve_restore g fuel b' rand fa s' lim kk' r' h')
        _ b sols _ r hcell hres

/-! ### Totality: fuel beyond the number of empty cells never runs out -/

theorem solveLoop_total {rec : Board → Option (List Board) → Nat → Option SRes}
    {fa : Bool} {lim : Option Nat} {row col : Nat} {n : Nat}
    (hrow : row < 9) (hcol : col < 9)
    (hrec : ∀ b s kk, WF b → numEmpty b < n → ∃ r, rec b s kk = some r ∧ WF r.board)
    (hrecr : ∀ b s kk r, rec b s kk = some r →
      (r.ok = false → r.board = b) ∧ (fa = true → r.board = b)) :
    ∀ (nums : List Nat) (board : Board) (sols : Option (List Board)) (k : Nat),
      WF board → cell board row col = 0 → numEmpty board ≤ n →
      ∃ r, solveLoop rec fa lim row col board sols k nums = some r ∧ WF r.board
  | [], board, sols, k, hWF, hcell, hn => ⟨⟨false, board, sols, k⟩, rfl, hWF⟩
  | num :: rest, board, sols, k, hWF, hcell, hn => by
    by_cases hv : is_valid_move board row col num = true
    · have hnz : num ≠ 0 := valid_num_ne_zero hWF hrow hcol hcell hv
      have hWF' : WF (setCell board row col num) := WF_setCell hWF row col num
      have hcount := numEmpty_setCell hWF hrow hcol hcell hnz
      obtain ⟨rr, hrr, hrrWF⟩ := hrec (setCell board row col num) sols k hWF' (by omega)
      by_cases hok : (rr.ok && !fa) = true
      · exact ⟨⟨true, rr.board, rr.sols, rr.k⟩,
          by simp only [solveLoop, if_pos hv, hrr, if_pos hok], hrrWF⟩
      · by_cases hlim : (fa && limitTruthy lim && decide (lim.getD 0 ≤ solsLen rr.sols)) = true
        · refine ⟨⟨true, setCell rr.board row col 0, rr.sols, rr.k⟩,
            by simp only [solveLoop, if_pos hv, hrr, if_neg hok, if_pos hlim], ?_⟩
          exact WF_setCell hrrWF row col 0
        · have hreset : setCell rr.board row col 0 = board := by
            have hrec' := hrecr _ _ _ _ hrr
            by_cases hfa : fa = true
            · rw [hrec'.2 hfa, setCell_restore _ _ hcell]
            · cases hrro : rr.ok with
              | false => rw [hrec'.1 hrro, setCell_restore _ _ hcell]
              | true =>
                exfalso
                apply hok
                rw [hrro]
                simp only [Bool.not_eq_true] at hfa
                rw [hfa]
                rfl
          obtain ⟨r, hr, hrWF⟩ :=
            solveLoop_total hrow hcol hrec hrecr rest board rr.sols rr.k hWF hcell hn
          refine ⟨r, ?_, hrWF⟩
          simp only [solveLoop, if_pos hv, hrr, if_neg hok, if_neg hlim, hreset]
          exact hr
    · obtain ⟨r, hr, hrWF⟩ :=
        solveLoop_total hrow hcol hrec hrecr rest board sols k hWF hcell hn
      exact ⟨r, by simp only [solveLoop, if_neg hv]; exact hr, hrWF⟩

/-- On a 9×9 board the solver always returns (the recursion is one
level per empty cell, so fuel exceeding `numEmpty b` — in particular the
fuel `82` used throughout — cannot run out), and the returned board is
again 9×9. -/
theorem solveSudoku_total (g : RNG) :
    ∀ (fuel : Nat) (b : Board) (rand fa : Bool) (sols : Option (List Board))
      (lim : Option Nat) (k : Nat), WF b → numEmpty b < fuel →
      ∃ r, solveSudoku g fuel b rand fa sols lim k = some r ∧ WF r.board
  | 0, b, rand, fa, sols, lim, k, hWF, hfuel => by omega
  | fuel + 1, b, rand, fa, sols, lim, k, hWF, hfuel => by
    cases hfe : find_empty_cell b with
    | none =>
      exact ⟨⟨true, b, if fa then appendSol sols b else sols, k⟩,
        by simp only [solveSudoku, hfe], hWF⟩
    | some p =>
      obtain ⟨row, col⟩ := p
      obtain ⟨hrow, hcol, hcell, -⟩ := find_empty_cell_some hfe
      obtain ⟨r, hr, hrWF⟩ := solveLoop_total (n := fuel) hrow hcol
        (fun b' s' kk' hWF' hn' => solveSudoku_total g fuel b' rand fa s' lim kk' hWF' hn')
        (fun b' s' kk' r' h' => solve_restore g fuel b' rand fa s' lim kk' r' h')
        (if rand then g k else Digits) b sols (if rand then k + 1 else k) hWF hcell (by omega)
      exact ⟨r, by simp only [solveSudoku, hfe]; exact hr, hrWF⟩

/-! ### Soundness of the find-first search -/

theorem Extends_refl (b : Board) : Extends b b := fun _ _ _ _ _ => rfl

theorem solveLoop_sound_ff {rec : Board → Option (List Board) → Nat → Option SRes}
    {lim : Option Nat} {row col : Nat}
    (hrow : row < 9) (hcol : col < 9)
    (hrec : ∀ b s kk r, WF b → ConsistentBoard b → rec b s kk = some r → r.ok = true →
      Full r.board ∧ ConsistentBoard r.board ∧ Extends r.board b)
    (hrecr : ∀ b s kk r, rec b s kk = some r → r.ok = false → r.board = b) :
    ∀ (nums : List Nat) (board : Board) (sols : Option (List Board)) (k : Nat) (r : SRes),
      (∀ x ∈ nums, x ∈ Digits) → WF board → ConsistentBoard board →
      cell board row col = 0 →
      solveLoop rec false lim row col board sols k nums = some r → r.ok = true →
      Full r.board ∧ ConsistentBoard r.board ∧ Extends r.board board
  | [], board, sols, k, r, hnums, hWF, hcons, hcell, hres, hok => by
    simp only [solveLoop] at hres
    obtain rfl : (⟨false, board, sols, k⟩ : SRes) = r := by injection hres
    simp at hok
  | num :: rest, board, sols, k, r, hnums, hWF, hcons, hcell, hres, hok => by
    simp only [solveLoop] at hres
    by_cases hv : is_valid_move board row col num = true
    · rw [if_pos hv] at hres
      have hnum9 : num ≤ 9 := (mem_Digits.1 (hnums num (by simp))).2
      have hWF' : WF (setCell board row col num) := WF_setCell hWF row col num
      have hcons' : ConsistentBoard (setCell board row col num) :=
        ConsistentBoard_setCell hWF hcons hrow hcol hcell hnum9 hv
      cases hrr : rec (setCell board row col num) sols k with
      | none => simp [hrr] at hres
      | some rr =>
        simp only [hrr] at hres
        cases hrro : rr.ok with
        | true =>
          rw [hrro] at hres
          simp only [Bool.true_and, Bool.not_false, if_true] at hres
          obtain rfl : (⟨true, rr.board, rr.sols, rr.k⟩ : SRes) = r := by injection hres
          obtain ⟨hF, hC, hE⟩ := hrec _ _ _ _ hWF' hcons' hrr hrro
          exact ⟨hF, hC, Extends_setCell_of hWF hrow hcol hcell hE⟩
        | false =>
          rw [hrro] at hres
          simp only [Bool.false_and, Bool.and_false, if_false, Bool.false_eq_true] at hres
          have hreset : setCell rr.board row col 0 = board := by
            rw [hrecr _ _ _ _ hrr hrro, setCell_restore _ _ hcell]
          rw [hreset] at hres
          exact solveLoop_sound_ff hrow hcol hrec hrecr rest board rr.sols rr.k r
            (fun x hx => hnums x (by simp [hx])) hWF hcons hcell hres hok
    · rw [if_neg hv] at hres
      exact solveLoop_sound_ff hrow hcol hrec hrecr rest board sols k r
        (fun x hx => hnums x (by simp [hx])) hWF hcons hcell hres hok

/-- Find-first / randomized success: the final board is a full
consistent board extending the input's givens. -/
theorem solve_sound_ff (g : RNG) :
    ∀ (fuel : Nat) (b : Board) (rand : Bool) (sols : Option (List Board))
      (lim : Option Nat) (k : Nat) (r : SRes),
      WF b → ConsistentBoard b → (rand = true → GoodRNG g) →
      solveSudoku g fuel b rand false sols lim k = some r → r.ok = true →
      Full r.board ∧ ConsistentBoard r.board ∧ Extends r.board b
  | 0, b, rand, sols, lim, k, r, hWF, hcons, hrand, hres, hok => by
    simp [solveSudoku] at hres
  | fuel + 1, b, rand, sols, lim, k, r, hWF, hcons, hrand, hres, hok => by
    simp only [solveSudoku] at hres
    cases hfe : find_empty_cell b with
    | none =>
      rw [hfe] at hres
      obtain rfl : (⟨true, b, sols, k⟩ : SRes) = r := by
        simpa using hres
      exact ⟨find_empty_cell_none_iff.1 hfe, hcons, Extends_refl b⟩
    | some p =>
      obtain ⟨row, col⟩ := p
      rw [hfe] at hres
      obtain ⟨hrow, hcol, hcell, -⟩ := find_empty_cell_some hfe
      have hnums : ∀ x ∈ (if rand then g k else Digits), x ∈ Digits := by
        cases rand with
        | false => simp
        | true =>
          intro x hx
          simp only [if_true] at hx
          exact ((hrand rfl k).mem_iff).1 hx
      exact solveLoop_sound_ff hrow hcol
        (fun b' s' kk' r' hWF' hcons' h' hok' =>
          solve_sound_ff g fuel b' rand s' lim kk' r' hWF' hcons' hrand h' hok')
        (fun b' s' kk' r' h' hok' =>
          (solve_restore g fuel b' rand false s' lim kk' r' h').1 hok')
        _ b sols _ r hnums hWF hcons hcell hres hok

/-! ### Completeness of the find-first search -/

theorem solveLoop_complete_ff {rec : Board → Option (List Board) → Nat → Option SRes}
    {lim : Option Nat} {row col : Nat} {n : Nat}
    (hrow : row < 9) (hcol : col < 9)
    (hrect : ∀ b s kk, WF b → numEmpty b < n → ∃ r, rec b s kk = some r ∧ WF r.board)
    (hrecr : ∀ b s kk r, rec b s kk = some r → r.ok = false → r.board = b)
    (hrecc : ∀ b s kk, WF b → ConsistentBoard b → numEmpty b < n →
      (∃ s', Completion s' b) → ∃ r, rec b s kk = some r ∧ r.ok = true) :
    ∀ (nums : List Nat) (board : Board) (sols : Option (List Board)) (k : Nat),
      WF board → ConsistentBoard board → cell board row col = 0 → numEmpty board ≤ n →
      (∃ d, d ∈ nums ∧ d ∈ Digits ∧ is_valid_move board row col d = true ∧
        (∃ s', Completion s' (setCell board row col d))) →
      ∃ r, solveLoop rec false lim row col board sols k nums = some r ∧ r.ok = true
  | [], board, sols, k, hWF, hcons, hcell, hn, hwit => by
    obtain ⟨d, hd, -⟩ := hwit
    simp at hd
  | num :: rest, board, sols, k, hWF, hcons, hcell, hn, hwit => by
    by_cases hv : is_valid_move board row col num = true
    · have hnz : num ≠ 0 := valid_num_ne_zero hWF hrow hcol hcell hv
      have hWF' : WF (setCell board row col num) := WF_setCell hWF row col num
      have hcount := numEmpty_setCell hWF hrow hcol hcell hnz
      obtain ⟨rr, hrr, hrrWF⟩ := hrect (setCell board row col num) sols k hWF' (by omega)
      cases hrro : rr.ok with
      | true =>
        refine ⟨⟨true, rr.board, rr.sols, rr.k⟩, ?_, rfl⟩
        simp only [solveLoop, if_pos hv, hrr, hrro, Bool.true_and, Bool.not_false, if_true]
      | false =>
        have hreset : setCell rr.board row col 0 = board := by
          rw [hrecr _ _ _ _ hrr hrro, setCell_restore _ _ hcell]
        have hwit' : ∃ d, d ∈ rest ∧ d ∈ Digits ∧ is_valid_move board row col d = true ∧
            (∃ s', Completion s' (setCell board row col d)) := by
          obtain ⟨d, hdmem, hdDig, hdval, hdcomp⟩ := hwit
          rcases List.mem_cons.1 hdmem with rfl | hdmem'
          · exfalso
            have hcons' : ConsistentBoard (setCell board row col d) :=
              ConsistentBoard_setCell hWF hcons hrow hcol hcell (mem_Digits.1 hdDig).2 hdval
            obtain ⟨r2, hr2, hr2ok⟩ :=
              hrecc (setCell board row col d) sols k hWF' hcons' (by omega) hdcomp
            rw [hrr] at hr2
            obtain rfl : rr = r2 := by injection hr2
            rw [hrro] at hr2ok
            exact Bool.false_ne_true hr2ok
          · exact ⟨d, hdmem', hdDig, hdval, hdcomp⟩
        obtain ⟨r, hres, hok⟩ := solveLoop_complete_ff hrow hcol hrect hrecr hrecc
          rest board rr.sols rr.k hWF hcons hcell hn hwit'
        refine ⟨r, ?_, hok⟩
        simp only [solveLoop, if_pos hv, hrr, hrro, Bool.false_and, Bool.and_false,
          Bool.false_eq_true, if_false, hreset]
        exact hres
    · obtain ⟨d, hdmem, hdDig, hdval, hdcomp⟩ := hwit
      have hdmem' : d ∈ rest := by
        rcases List.mem_cons.1 hdmem with rfl | h'
        · exact absurd hdval hv
        · exact h'
      obtain ⟨r, hres, hok⟩ := solveLoop_complete_ff hrow hcol hrect hrecr hrecc
        rest board sols k hWF hcons hcell hn ⟨d, hdmem', hdDig, hdval, hdcomp⟩
      exact ⟨r, by simp only [solveLoop, if_neg hv]; exact hres, hok⟩

/-- Completeness: on a satisfiable consistent 9×9 board the find-first
search succeeds (failure means no completion exists). -/
theorem solve_complete_ff (g : RNG) :
    ∀ (fuel : Nat) (b : Board) (rand : Bool) (sols : Option (List Board))
      (lim : Option Nat) (k : Nat),
      WF b → ConsistentBoard b → (rand = true → GoodRNG g) → numEmpty b < fuel →
      (∃ s, Completion s b) →
      ∃ r, solveSudoku g fuel b rand false sols lim k = some r ∧ r.ok = true
  | 0, b, rand, sols, lim, k, hWF, hcons, hrand, hfuel, hsat => by omega
  | fuel + 1, b, rand, sols, lim, k, hWF, hcons, hrand, hfuel, hsat => by
    cases hfe : find_empty_cell b with
    | none =>
      exact ⟨⟨true, b, sols, k⟩, by simp only [solveSudoku, hfe]; rfl, rfl⟩
    | some p =>
      obtain ⟨row, col⟩ := p
      obtain ⟨hrow, hcol, hcell, -⟩ := find_empty_cell_some hfe
      obtain ⟨s, hcomp⟩ := hsat
      obtain ⟨hdDig, hdval⟩ := Completion_valid_move hWF hrow hcol hcell hcomp
      have hdmem : cell s row col ∈ (if rand then g k else Digits) := by
        cases rand with
        | false => simpa using hdDig
        | true =>
          simp only [if_true]
          exact ((hrand rfl k).mem_iff).2 hdDig
      have hcomp' : Completion s (setCell b row col (cell s row col)) :=
        ⟨hcomp.1, hcomp.2.1, hcomp.2.2.1,
          Extends_setCell_to hWF hrow hcol rfl hcomp.2.2.2⟩
      obtain ⟨r, hres, hok⟩ := solveLoop_complete_ff (n := fuel) hrow hcol
        (fun b' s' kk' hWF' hn' => solveSudoku_total g fuel b' rand false s' lim kk' hWF' hn')
        (fun b' s' kk' r' h' hok' =>
          (solve_restore g fuel b' rand false s' lim kk' r' h').1 hok')
        (fun b' s' kk' hWF' hcons' hn' hsat' =>
          solve_complete_ff g fuel b' rand s' lim kk' hWF' hcons' hrand hn' hsat')
        _ b sols _ hWF hcons hcell (by omega)
        ⟨cell s row col, hdmem, hdDig, hdval, s, hcomp'⟩
      exact ⟨r, by simp only [solveSudoku, hfe]; exact hres, hok⟩

/-! ### The find-all search: enumeration up to the limit -/

theorem Completion_setCell_of {s b : Board} (hWF : WF b) {row col num : Nat}
    (hrow : row < 9) (hcol : col < 9) (hcell : cell b row col = 0)
    (h : Completion s (setCell b row col num)) : Completion s b :=
  ⟨h.1, h.2.1, h.2.2.1, Extends_setCell_of hWF hrow hcol hcell h.2.2.2⟩

theorem Completion_setCell_to {s b : Board} (hWF : WF b) {row col num : Nat}
    (hrow : row < 9) (hcol : col < 9) (hnum : cell s row col = num)
    (h : Completion s b) : Completion s (setCell b row col num) :=
  ⟨h.1, h.2.1, h.2.2.1, Extends_setCell_to hWF hrow hcol hnum h.2.2.2⟩

theorem Completion_cell_at {s b : Board} (hWF : WF b) {row col num : Nat}
    (hrow : row < 9) (hcol : col < 9) (hnz : num ≠ 0)
    (h : Completion s (setCell b row col num)) : cell s row col = num := by
  have h' := h.2.2.2 row hrow col hcol (by rw [cell_setCell_same hWF hrow hcol]; exact hnz)
  rwa [cell_setCell_same hWF hrow hcol] at h'

theorem limitTruthy_some {m : Nat} (hm : 1 ≤ m) : limitTruthy (some m) = true := by
  simp [limitTruthy]
  omega

theorem solveLoop_cons_valid {rec : Board → Option (List Board) → Nat → Option SRes}
    {fa : Bool} {lim : Option Nat} {row col : Nat}
    {board : Board} {sols : Option (List Board)} {k num : Nat} {rest : List Nat} {rr : SRes}
    (hv : is_valid_move board row col num = true)
    (hrr : rec (setCell board row col num) sols k = some rr) :
    solveLoop rec fa lim row col board sols k (num :: rest) =
      if rr.ok && !fa then some ⟨true, rr.board, rr.sols, rr.k⟩
      else if fa && limitTruthy lim && lim.getD 0 ≤ solsLen rr.sols then
        some ⟨true, setCell rr.board row col 0, rr.sols, rr.k⟩
      else solveLoop rec fa lim row col (setCell rr.board row col 0) rr.sols rr.k rest := by
  simp only [solveLoop, if_pos hv, hrr]

theorem solveLoop_cons_invalid {rec : Board → Option (List Board) → Nat → Option SRes}
    {fa : Bool} {lim : Option Nat} {row col : Nat}
    {board : Board} {sols : Option (List Board)} {k num : Nat} {rest : List Nat}
    (hv : ¬ is_valid_move board row col num = true) :
    solveLoop rec fa lim row col board sols k (num :: rest) =
      solveLoop rec fa lim row col board sols k rest := by
  simp only [solveLoop, if_neg hv]

theorem solveLoop_findall (rec : Board → Option (List Board) → Nat → Option SRes)
    {row col : Nat} {n m : Nat} (hm : 1 ≤ m)
    (hrow : row < 9) (hcol : col < 9)
    (hrec : ∀ b l kk, WF b → ConsistentBoard b → numEmpty b < n → l.length < m →
      ∃ r new, rec b (some l) kk = some r ∧ r.board = b ∧ r.sols = some (l ++ new) ∧
        (∀ s ∈ new, Completion s b) ∧ new.Nodup ∧ l.length + new.length ≤ m ∧
        (r.ok = true ↔ (find_empty_cell b = none ∨ l.length + new.length = m)) ∧
        (l.length + new.length < m → ∀ s, Completion s b → s ∈ new)) :
    ∀ (nums : List Nat) (board : Board) (l : List Board) (k : Nat),
      WF board → ConsistentBoard board → cell board row col = 0 → numEmpty board ≤ n →
      l.length < m → (∀ x ∈ nums, x ∈ Digits) → nums.Nodup →
      ∃ r new, solveLoop rec true (some m) row col board (some l) k nums = some r ∧
        r.board = board ∧ r.sols = some (l ++ new) ∧
        (∀ s ∈ new, Completion s board ∧ cell s row col ∈ nums) ∧ new.Nodup ∧
        l.length + new.length ≤ m ∧
        (r.ok = true ↔ l.length + new.length = m) ∧
        (l.length + new.length < m →
          ∀ s, Completion s board → cell s row col ∈ nums → s ∈ new)
  | [], board, l, k, hWF, hcons, hcell, hn, hl, hnums, hnodup => by
    refine ⟨⟨false, board, some l, k⟩, [], rfl, rfl, by simp, by simp, List.nodup_nil,
      by simpa using hl.le, by simp; omega, ?_⟩
    intro _ s _ hmem
    simp at hmem
  | num :: rest, board, l, k, hWF, hcons, hcell, hn, hl, hnums, hnodup => by
    by_cases hv : is_valid_move board row col num = true
    · have hnumDig : num ∈ Digits := hnums num (List.mem_cons_self _ _)
      have hnum9 : num ≤ 9 := (mem_Digits.1 hnumDig).2
      have hnz : num ≠ 0 := valid_num_ne_zero hWF hrow hcol hcell hv
      have hWF' : WF (setCell board row col num) := WF_setCell hWF row col num
      have hcons' := ConsistentBoard_setCell hWF hcons hrow hcol hcell hnum9 hv
      have hcount := numEmpty_setCell hWF hrow hcol hcell hnz
      obtain ⟨rr, new1, hrr, hrrb, hrrs, hrrcomp, hrrnd, hrrlen, hrrok, hrrexh⟩ :=
        hrec (setCell board row col num) l k hWF' hcons' (by omega) hl
      have hreset : setCell rr.board row col 0 = board := by
        rw [hrrb, setCell_restore _ _ hcell]
      have hsl : solsLen rr.sols = l.length + new1.length := by
        rw [hrrs]
        simp [solsLen]
      have hcomp1 : ∀ s ∈ new1, Completion s board ∧ cell s row col = num := by
        intro s hs
        exact ⟨Completion_setCell_of hWF hrow hcol hcell (hrrcomp s hs),
          Completion_cell_at hWF hrow hcol hnz (hrrcomp s hs)⟩
      by_cases hreach : m ≤ l.length + new1.length
      · have hlen1 : l.length + new1.length = m := le_antisymm hrrlen hreach
        have hcond : (true && limitTruthy (some m) &&
            decide ((some m).getD 0 ≤ solsLen rr.sols)) = true := by
          rw [limitTruthy_some hm]
          simp only [Bool.true_and, Option.getD_some, decide_eq_true_eq, hsl]
          omega
        refine ⟨⟨true, setCell rr.board row col 0, rr.sols, rr.k⟩, new1, ?_,
          hreset, hrrs, ?_, hrrnd, hrrlen, by simp [hlen1], ?_⟩
        · rw [solveLoop_cons_valid hv hrr, if_neg (by simp), if_pos hcond]
        · intro s hs
          exact ⟨(hcomp1 s hs).1, by rw [(hcomp1 s hs).2]; exact List.mem_cons_self _ _⟩
        · intro hlt
          omega
      · have hcond : ¬ ((true && limitTruthy (some m) &&
            decide ((some m).getD 0 ≤ solsLen rr.sols)) = true) := by
          rw [limitTruthy_some hm]
          simp only [Bool.true_and, Option.getD_some, decide_eq_true_eq, hsl]
          omega
        have hl' : (l ++ new1).length < m := by
          rw [List.length_append]
          omega
        obtain ⟨r, new2, hres2, hb2, hs2, hcomp2, hnd2, hlen2, hok2, hexh2⟩ :=
          solveLoop_findall rec hm hrow hcol hrec rest board (l ++ new1) rr.k hWF hcons hcell hn
            hl' (fun x hx => hnums x (List.mem_cons_of_mem _ hx)) (List.Nodup.of_cons hnodup)
        have hnum_not_rest : num ∉ rest := (List.nodup_cons.1 hnodup).1
        refine ⟨r, new1 ++ new2, ?_, hb2, ?_, ?_, ?_, ?_, ?_, ?_⟩
        · rw [solveLoop_cons_valid hv hrr, if_neg (by simp), if_neg hcond, hreset, hrrs]
          exact hres2
        · rw [hs2, List.append_assoc]
        · intro s hs
          rcases List.mem_append.1 hs with hs1 | hs2'
          · exact ⟨(hcomp1 s hs1).1, by rw [(hcomp1 s hs1).2]; exact List.mem_cons_self _ _⟩
          · exact ⟨(hcomp2 s hs2').1, List.mem_cons_of_mem _ (hcomp2 s hs2').2⟩
        · rw [List.nodup_append]
          refine ⟨hrrnd, hnd2, ?_⟩
          intro s hs1 hs2'
          have e1 : cell s row col = num := (hcomp1 s hs1).2
          have e2 : cell s row col ∈ rest := (hcomp2 s hs2').2
          rw [e1] at e2
          exact hnum_not_rest e2
        · rw [List.length_append] at hlen2 ⊢
          omega
        · rw [List.length_append] at hok2
          rw [List.length_append]
          constructor
          · intro h
            have := hok2.1 h
            omega
          · intro h
            exact hok2.2 (by omega)
        · rw [List.length_append] at hexh2
          rw [List.length_append]
          intro hlt s hscomp hsnum
          rcases List.mem_cons.1 hsnum with heqn | h'
          · apply List.mem_append_left
            apply hrrexh (by omega) s
            exact Completion_setCell_to hWF hrow hcol heqn hscomp
          · exact List.mem_append_right _ (hexh2 (by omega) s hscomp h')
    · obtain ⟨r, new, hres, hb, hs, hcomp, hnd, hlen, hok, hexh⟩ :=
        solveLoop_findall rec hm hrow hcol hrec rest board l k hWF hcons hcell hn hl
          (fun x hx => hnums x (List.mem_cons_of_mem _ hx)) (List.Nodup.of_cons hnodup)
      refine ⟨r, new, ?_, hb, hs, ?_, hnd, hlen, hok, ?_⟩
      · rw [solveLoop_cons_invalid hv]
        exact hres
      · intro s hsmem
        exact ⟨(hcomp s hsmem).1, List.mem_cons_of_mem _ (hcomp s hsmem).2⟩
      · intro hlt s hscomp hsnum
        rcases List.mem_cons.1 hsnum with heqn | h'
        · exfalso
          have hval := (Completion_valid_move hWF hrow hcol hcell hscomp).2
          rw [heqn] at hval
          exact hv hval
        · exact hexh hlt s hscomp h'

theorem Digits_nodup : Digits.Nodup := by decide

theorem getElem?_eq_some_getD {α} {l : List α} {n : Nat} (h : n < l.length) (d : α) :
    l[n]? = some (l.getD n d) := by
  rw [List.getD_eq_getElem _ _ h, List.getElem?_eq_getElem h]

/-- Two 9×9 boards with the same cells are equal. -/
theorem Board_ext {b1 b2 : Board} (h1 : WF b1) (h2 : WF b2)
    (h : ∀ r, r < 9 → ∀ c, c < 9 → cell b1 r c = cell b2 r c) : b1 = b2 := by
  have hl1 : b1.length = 9 := h1.1
  have hl2 : b2.length = 9 := h2.1
  have hrow : ∀ r, r < 9 → b1.getD r [] = b2.getD r [] := by
    intro r hr
    apply List.ext_getElem?
    intro c
    rcases Nat.lt_or_ge c 9 with hc | hc
    · rw [getElem?_eq_some_getD (by rw [row_length h1 hr]; omega) 0,
        getElem?_eq_some_getD (by rw [row_length h2 hr]; omega) 0]
      have hcc := h r hr c hc
      unfold cell at hcc
      rw [hcc]
    · rw [List.getElem?_eq_none (by rw [row_length h1 hr]; omega),
        List.getElem?_eq_none (by rw [row_length h2 hr]; omega)]
  apply List.ext_getElem?
  intro r
  rcases Nat.lt_or_ge r 9 with hr | hr
  · rw [getElem?_eq_some_getD (by omega : r < b1.length) [],
      getElem?_eq_some_getD (by omega : r < b2.length) []]
    rw [hrow r hr]
  · rw [List.getElem?_eq_none (by omega : b1.length ≤ r),
      List.getElem?_eq_none (by omega : b2.length ≤ r)]

/-- The only completion of a full consistent board is the board itself. -/
theorem Completion_of_full {s b : Board} (hWF : WF b) (hFull : Full b)
    (h : Completion s b) : s = b := by
  apply Board_ext h.1 hWF
  intro r hr c hc
  exact h.2.2.2 r hr c hc (hFull r hr c hc)

/-- `solve_sudoku(board, find_all=True, solutions_list, solution_limit=m)`:
the search appends distinct completions of `board` to the supplied list,
never beyond the limit, restores the board, succeeds exactly when the
limit is reached or the board was already full on entry, and — when the
limit was not reached — has enumerated every completion. -/
theorem solve_findall (g : RNG) :
    ∀ (fuel : Nat) (b : Board) (rand : Bool) (l : List Board) (m k : Nat),
      1 ≤ m → WF b → ConsistentBoard b → (rand = true → GoodRNG g) →
      numEmpty b < fuel → l.length < m →
      ∃ r new, solveSudoku g fuel b rand true (some l) (some m) k = some r ∧
        r.board = b ∧ r.sols = some (l ++ new) ∧
        (∀ s ∈ new, Completion s b) ∧ new.Nodup ∧ l.length + new.length ≤ m ∧
        (r.ok = true ↔ (find_empty_cell b = none ∨ l.length + new.length = m)) ∧
        (l.length + new.length < m → ∀ s, Completion s b → s ∈ new)
  | 0, b, rand, l, m, k, hm, hWF, hcons, hrand, hfuel, hl => by omega
  | fuel + 1, b, rand, l, m, k, hm, hWF, hcons, hrand, hfuel, hl => by
    cases hfe : find_empty_cell b with
    | none =>
      have hFull : Full b := find_empty_cell_none_iff.1 hfe
      refine ⟨⟨true, b, appendSol (some l) b, k⟩, [b],
        by simp only [solveSudoku, hfe]; rfl, rfl, by simp [appendSol], ?_, by simp,
        by simp; omega, by simp [hfe], ?_⟩
      · intro s hs
        rw [List.mem_singleton.1 hs]
        exact ⟨hWF, hFull, hcons, Extends_refl b⟩
      · intro hlt s hscomp
        rw [List.mem_singleton]
        exact Completion_of_full hWF hFull hscomp
    | some p =>
      obtain ⟨row, col⟩ := p
      obtain ⟨hrow, hcol, hcell, -⟩ := find_empty_cell_some hfe
      have hnums : ∀ x ∈ (if rand then g k else Digits), x ∈ Digits := by
        cases rand with
        | false => simp
        | true =>
          intro x hx
          simp only [if_true] at hx
          exact ((hrand rfl k).mem_iff).1 hx
      have hnodup : (if rand then g k else Digits).Nodup := by
        cases rand with
        | false => simpa using Digits_nodup
        | true => simpa using ((hrand rfl k).nodup_iff).2 Digits_nodup
      obtain ⟨r, new, hres, hb, hs, hcomp, hnd, hlen, hok, hexh⟩ :=
        solveLoop_findall (fun b' s' kk' => solveSudoku g fuel b' rand true s' (some m) kk')
          (n := fuel) hm hrow hcol
          (fun b' l' kk' hWF' hcons' hn' hl' =>
            solve_findall g fuel b' rand l' m kk' hm hWF' hcons' hrand hn' hl')
          (if rand then g k else Digits) b l (if rand then k + 1 else k)
          hWF hcons hcell (by omega) hl hnums hnodup
      refine ⟨r, new, by simp only [solveSudoku, hfe]; exact hres, hb, hs,
        fun s hsm => (hcomp s hsm).1, hnd, hlen, ?_, ?_⟩
      · rw [hok]
        simp [hfe]
      · intro hlt s hscomp
        apply hexh hlt s hscomp
        have hdig := (Completion_valid_move hWF hrow hcol hcell hscomp).1
        cases rand with
        | false => simpa using hdig
        | true => simpa using ((hrand rfl k).mem_iff).2 hdig

/-! ### A full consistent board is a solved Sudoku -/

/-- Every row, column and 3×3 block contains each digit 1–9 exactly
once. -/
def ValidSolved (b : Board) : Prop :=
  ∀ d, 1 ≤ d → d ≤ 9 →
    (∀ r, r < 9 → (rowList b r).count d = 1) ∧
    (∀ c, c < 9 → (colList b c).count d = 1) ∧
    (∀ r, r < 9 → ∀ c, c < 9 → (blockList b r c).count d = 1)

instance : DecidablePred ValidSolved := fun b => by
  unfold ValidSolved
  infer_instance

theorem count_eq_one_of_nine {l : List Nat} (hlen : l.length = 9)
    (hsub : ∀ x ∈ l, x ∈ Digits) (hnd : l.Nodup) {d : Nat} (hd : d ∈ Digits) :
    l.count d = 1 := by
  have hsp : l.Subperm Digits := List.subperm_of_subset hnd hsub
  have hperm : l.Perm Digits := hsp.perm_of_length_le (by rw [hlen]; decide)
  rw [hperm.count_eq]
  exact List.count_eq_one_of_mem Digits_nodup hd

theorem getD_map_range {α} {f : Nat → α} {n c : Nat} (hc : c < n) (d : α) :
    ((List.range n).map f).getD c d = f c := by
  rw [List.getD_eq_getElem _ _ (by rw [List.length_map, List.length_range]; exact hc)]
  rw [List.getElem_map, List.getElem_range]

theorem rowList_eq_map {b : Board} (h : WF b) {r : Nat} (hr : r < 9) :
    rowList b r = (List.range 9).map (fun c => cell b r c) := by
  apply List.ext_getElem?
  intro c
  rcases Nat.lt_or_ge c 9 with hc | hc
  · rw [getElem?_eq_some_getD (l := rowList b r) (by unfold rowList; rw [row_length h hr]; omega) 0,
      getElem?_eq_some_getD (l := (List.range 9).map (fun j => cell b r j))
        (by rw [List.length_map, List.length_range]; omega) 0]
    rw [getD_map_range hc 0]
    rfl
  · rw [List.getElem?_eq_none (by unfold rowList; rw [row_length h hr]; omega),
      List.getElem?_eq_none (by rw [List.length_map, List.length_range]; omega)]

theorem blockList_eq_map (b : Board) (r c : Nat) :
    blockList b r c =
      (List.range 9).map (fun t => cell b (3 * (r / 3) + t / 3) (3 * (c / 3) + t % 3)) := by
  rfl

theorem cells_ne {b : Board} (hcons : ConsistentBoard b) (hFull : Full b)
    {r1 c1 r2 c2 : Nat} (h1 : r1 < 9) (h2 : c1 < 9) (h3 : r2 < 9) (h4 : c2 < 9)
    (hne : ¬(r1 = r2 ∧ c1 = c2)) (hunit : sameUnit r1 c1 r2 c2) :
    cell b r1 c1 ≠ cell b r2 c2 := by
  apply hcons.2 r1 h1 c1 h2 r2 h3 c2 h4 ?_ hunit (hFull r1 h1 c1 h2)
  intro hh
  exact hne ⟨congrArg Prod.fst hh, congrArg Prod.snd hh⟩

theorem ValidSolved_of_full {b : Board} (hWF : WF b) (hFull : Full b)
    (hcons : ConsistentBoard b) : ValidSolved b := by
  intro d hd1 hd9
  have hdD : d ∈ Digits := mem_Digits.2 ⟨hd1, hd9⟩
  have hmem : ∀ r c, r < 9 → c < 9 → cell b r c ∈ Digits := by
    intro r c hr hc
    exact mem_Digits.2 ⟨by have := hFull r hr c hc; omega, hcons.1 r hr c hc⟩
  refine ⟨?_, ?_, ?_⟩
  · intro r hr
    apply count_eq_one_of_nine (row_length hWF hr) ?_ ?_ hdD
    · intro x hx
      obtain ⟨c', hc', hcx⟩ := (mem_rowList hWF hr).1 hx
      rw [← hcx]
      exact hmem r c' hr hc'
    · have hmap := rowList_eq_map hWF hr
      unfold rowList at hmap
      rw [hmap]
      apply List.Nodup.map_on ?_ (List.nodup_range 9)
      intro c1 hc1 c2 hc2 hcc
      by_contra hne
      exact cells_ne hcons hFull hr (List.mem_range.1 hc1) hr (List.mem_range.1 hc2)
        (fun hh => hne hh.2) (Or.inl rfl) hcc
  · intro c hc
    apply count_eq_one_of_nine (by simp [colList]) ?_ ?_ hdD
    · intro x hx
      obtain ⟨r', hr', hrx⟩ := (mem_colList).1 hx
      rw [← hrx]
      exact hmem r' c hr' hc
    · apply List.Nodup.map_on ?_ (List.nodup_range 9)
      intro r1 hr1 r2 hr2 hrr
      by_contra hne
      exact cells_ne hcons hFull (List.mem_range.1 hr1) hc (List.mem_range.1 hr2) hc
        (fun hh => hne hh.1) (Or.inr (Or.inl rfl)) hrr
  · intro r hr c hc
    apply count_eq_one_of_nine (by rw [blockList_eq_map]; simp) ?_ ?_ hdD
    · intro x hx
      obtain ⟨i, hi, j, hj, hij⟩ := (mem_blockList).1 hx
      rw [← hij]
      exact hmem _ _ (by omega) (by omega)
    · rw [blockList_eq_map]
      apply List.Nodup.map_on ?_ (List.nodup_range 9)
      intro t1 ht1 t2 ht2 htt
      have ht1' := List.mem_range.1 ht1
      have ht2' := List.mem_range.1 ht2
      by_contra hne
      refine absurd htt (cells_ne hcons hFull (by omega) (by omega) (by omega) (by omega) ?_ ?_)
      · intro hh
        apply hne
        omega
      · refine Or.inr (Or.inr ⟨?_, ?_⟩)
        · omega
        · omega

/-! ### The generator (src/sudoku.py) -/

/-- `np.zeros((9, 9), dtype=int)`. -/
def emptyBoard : Board := List.replicate 9 (List.replicate 9 0)

/-- `SudokuGame.generate_solved_board`: solve a zero board in
randomized mode and return the (in-place mutated) board, ignoring the
returned boolean exactly as the Python does.  The out-of-fuel arm is
unreachable (`solveSudoku_total`, `numEmpty emptyBoard = 81 < 82`). -/
def generate_solved_board (g : RNG) (k : Nat) : Board :=
  match solveSudoku g 82 emptyBoard true false none none k with
  | some r => r.board
  | none => emptyBoard

/-- `SudokuGame.has_unique_solution`: run the solver on a copy with
`find_all=True, solutions_list=[], solution_limit=2` and test
`len(solutions) == 1`.  (`randomize` is off, so the oracle argument is
never consulted.)  The out-of-fuel arm is unreachable on 9×9 boards. -/
def has_unique_solution (g : RNG) (b : Board) : Bool :=
  match solveSudoku g 82 b false true (some []) (some 2) 0 with
  | some r => solsLen r.sols == 1
  | none => false

/-- `levels = {"easy": 43, "medium": 51, "hard": 62};
levels.get(self.difficulty, 51)`. -/
def squaresToRemove (difficulty : String) : Nat :=
  if difficulty = "easy" then 43
  else if difficulty = "medium" then 51
  else if difficulty = "hard" then 62
  else 51

/-- The removal loop of `generate_puzzle`.  Per visited cell: stop when
`squares_removed >= squares_to_remove`; stop when the difficulty is
`"hard"` and the wall clock exceeded the 4-second budget (`timeHit i`
models the `i`-th reading of `time.time() - start_time > timeout`);
otherwise clear the cell, probe uniqueness on a copy, and restore the
backup if the probe fails, else count the clearing.  Returns the board
and the final `squares_removed` counter. -/
def removeLoop (g : RNG) (difficulty : String) (timeHit : Nat → Bool)
    (squares_to_remove : Nat) :
    Board → Nat → Nat → List (Nat × Nat) → Board × Nat
  | board, removed, _, [] => (board, removed)
  | board, removed, i, (r, c) :: rest =>
    if squares_to_remove ≤ removed then (board, removed)
    else if difficulty = "hard" ∧ timeHit i = true then (board, removed)
    else
      let backup := cell board r c
      let b1 := setCell board r c 0
      if has_unique_solution g b1 then
        removeLoop g difficulty timeHit squares_to_remove b1 (removed + 1) (i + 1) rest
      else
        removeLoop g difficulty timeHit squares_to_remove
          (setCell b1 r c backup) removed (i + 1) rest

/-- `SudokuGame.generate_puzzle`: build a solved board, then visit the
cells in the shuffled order `cells` (`random.shuffle(cells)` modelled as
an oracle — theorems about it hold for every visiting order), clearing
uniqueness-preserving cells up to the difficulty's target. -/
def generate_puzzle (g : RNG) (cells : List (Nat × Nat)) (timeHit : Nat → Bool)
    (difficulty : String) : Board :=
  let board := generate_solved_board g 0
  (removeLoop g difficulty timeHit (squaresToRemove difficulty) board 0 0 cells).1

/-- `SudokuGame.__init__`: the puzzle becomes `original_board`, and
`solution` is a copy of it solved by the find-first search (the return
value of that call is ignored, as in the source). -/
def gameInit (g : RNG) (cells : List (Nat × Nat)) (timeHit : Nat → Bool)
    (difficulty : String) : Board × Board :=
  let ob := generate_puzzle g cells timeHit difficulty
  let sol := match solveSudoku g 82 ob false false none none 0 with
    | some r => r.board
    | none => ob
  (ob, sol)

/-! ### The candidate calculator (`get_all_possible_marks`) -/

/-- `SudokuGame.get_all_possible_marks` on a board snapshot: a 9×9 grid
of digit sets, `set(range(1, 10))` minus the row, column and block
occupants for each empty cell, and the initial empty set for filled
cells. -/
def get_all_possible_marks (b : Board) : List (List (Finset Nat)) :=
  (List.range 9).map (fun r => (List.range 9).map (fun c =>
    if cell b r c = 0 then
      ((Finset.Icc 1 9 \ (rowList b r).toFinset) \ (colList b c).toFinset)
        \ (blockList b r c).toFinset
    else ∅))

/-! ### The near-duplicate solver of src/game.py -/

/-- `SudokuGame.GRID_SIZE` (src/game.py). -/
def GRID_SIZE : Nat := 9

/-- `SudokuGame.BLOCK_SIZE` (src/game.py). -/
def BLOCK_SIZE : Nat := 3

/-- `SudokuGame._original_find_empty_cell` (src/game.py) — identical to
src/sudoku.py's apart from wrapping the numpy ints in `int(...)`. -/
def original_find_empty_cell (b : Board) : Option (Nat × Nat) :=
  allCells.find? (fun p => cell b p.1 p.2 == 0)

/-- The block slice of `_original_is_valid_move`, written with the
`BLOCK_SIZE` constant as in src/game.py. -/
def original_blockList (b : Board) (r c : Nat) : List Nat :=
  (List.range BLOCK_SIZE).flatMap
    (fun i => (List.range BLOCK_SIZE).map
      (fun j => cell b (BLOCK_SIZE * (r / BLOCK_SIZE) + i) (BLOCK_SIZE * (c / BLOCK_SIZE) + j)))

/-- `SudokuGame._original_is_valid_move` (src/game.py). -/
def original_is_valid_move (b : Board) (row col num : Nat) : Bool :=
  if (rowList b row).contains num then false
  else if (colList b col).contains num then false
  else if (original_blockList b row col).contains num then false
  else true

/-- The `for num in nums` loop of `_original_solve_sudoku`; unlike
src/sudoku.py it guards both the append and the limit check with
`solutions_list is not None`. -/
def original_solveLoop (rec : Board → Option (List Board) → Nat → Option SRes)
    (find_all : Bool) (limit : Option Nat) (row col : Nat) :
    Board → Option (List Board) → Nat → List Nat → Option SRes
  | board, sols, k, [] => some ⟨false, board, sols, k⟩
  | board, sols, k, num :: rest =>
    if original_is_valid_move board row col num then
      match rec (setCell board row col num) sols k with
      | none => none
      | some r =>
        if r.ok && !find_all then some ⟨true, r.board, r.sols, r.k⟩
        else if find_all && limitTruthy limit && r.sols.isSome
            && limit.getD 0 ≤ solsLen r.sols then
          some ⟨true, setCell r.board row col 0, r.sols, r.k⟩
        else
          original_solveLoop rec find_all limit row col
            (setCell r.board row col 0) r.sols r.k rest
    else
      original_solveLoop rec find_all limit row col board sols k rest

/-- `SudokuGame._original_solve_sudoku` (src/game.py), with
`nums = list(range(1, self.GRID_SIZE + 1))`. -/
def original_solve_sudoku (g : RNG) :
    Nat → Board → Bool → Bool → Option (List Board) → Option Nat → Nat → Option SRes
  | 0, _, _, _, _, _, _ => none
  | fuel + 1, board, randomize, find_all, sols, limit, k =>
    match original_find_empty_cell board with
    | none =>
      some ⟨true, board, if find_all && sols.isSome then appendSol sols board else sols, k⟩
    | some (row, col) =>
      let nums := if randomize then g k else List.range' 1 GRID_SIZE
      let k1 := if randomize then k + 1 else k
      original_solveLoop (fun b s kk => original_solve_sudoku g fuel b randomize find_all s limit kk)
        find_all limit row col board sols k1 nums

/-! ### Clearing a cell preserves consistency and completions -/

theorem setCell_out_of_range {b : Board} (hWF : WF b) {r c : Nat}
    (h : 9 ≤ r ∨ 9 ≤ c) (v : Nat) : setCell b r c v = b := by
  rcases h with h | h
  · exact setCell_of_length_le c v (by rw [hWF.1]; omega)
  · rcases Nat.lt_or_ge r 9 with hr | hr
    · unfold setCell
      rw [List.set_eq_of_length_le (l := b.getD r []) (by rw [row_length hWF hr]; omega)]
      exact set_getD_self b r []
    · exact setCell_of_length_le c v (by rw [hWF.1]; omega)

theorem ConsistentBoard_clear {b : Board} (hWF : WF b) (hcons : ConsistentBoard b)
    (r c : Nat) : ConsistentBoard (setCell b r c 0) := by
  rcases Nat.lt_or_ge r 9 with hr | hr
  · rcases Nat.lt_or_ge c 9 with hc | hc
    · constructor
      · intro r' hr' c' hc'
        rw [cell_setCell hWF hr hc]
        split
        · omega
        · exact hcons.1 r' hr' c' hc'
      · intro r1 h1 c1 h2 r2 h3 c2 h4 hne hunit
        rw [cell_setCell hWF hr hc, cell_setCell hWF hr hc]
        by_cases e1 : r = r1 ∧ c = c1
        · rw [if_pos e1]
          intro h0
          exact absurd rfl h0
        · rw [if_neg e1]
          by_cases e2 : r = r2 ∧ c = c2
          · rw [if_pos e2]
            intro hnz _
            exact hnz (by assumption)
          · rw [if_neg e2]
            exact hcons.2 r1 h1 c1 h2 r2 h3 c2 h4 hne hunit
    · rw [setCell_out_of_range hWF (Or.inr hc)]
      exact hcons
  · rw [setCell_out_of_range hWF (Or.inl hr)]
    exact hcons

theorem Extends_clear {s b : Board} (hWF : WF b) (r c : Nat) (hext : Extends s b) :
    Extends s (setCell b r c 0) := by
  rcases Nat.lt_or_ge r 9 with hr | hr
  · rcases Nat.lt_or_ge c 9 with hc | hc
    · intro r' hr' c' hc' hnz
      by_cases e : r = r' ∧ c = c'
      · rw [cell_setCell hWF hr hc, if_pos e] at hnz
        exact absurd rfl hnz
      · rw [cell_setCell_other hWF hr hc _ e] at hnz ⊢
        exact hext r' hr' c' hc' hnz
    · rw [setCell_out_of_range hWF (Or.inr hc)]
      exact hext
  · rw [setCell_out_of_range hWF (Or.inl hr)]
    exact hext

/-! ### Concrete facts about the empty board and one solved grid -/

theorem emptyBoard_WF : WF emptyBoard := by decide

theorem emptyBoard_cons : ConsistentBoard emptyBoard := by decide

theorem emptyBoard_numEmpty : numEmpty emptyBoard = 81 := by decide

/-- One concrete solved grid, witnessing that the empty board has a
completion. -/
def canonBoard : Board := [
  [1, 2, 3, 4, 5, 6, 7, 8, 9],
  [4, 5, 6, 7, 8, 9, 1, 2, 3],
  [7, 8, 9, 1, 2, 3, 4, 5, 6],
  [2, 1, 4, 3, 6, 5, 8, 9, 7],
  [3, 6, 5, 8, 9, 7, 2, 1, 4],
  [8, 9, 7, 2, 1, 4, 3, 6, 5],
  [5, 3, 1, 6, 4, 2, 9, 7, 8],
  [6, 4, 2, 9, 7, 8, 5, 3, 1],
  [9, 7, 8, 5, 3, 1, 6, 4, 2]]

theorem canon_completion : Completion canonBoard emptyBoard := by decide

/-! ### `generate_solved_board` and `has_unique_solution` -/

theorem generate_solved_board_WF (g : RNG) (k : Nat) : WF (generate_solved_board g k) := by
  obtain ⟨r, hres, hWFr⟩ := solveSudoku_total g 82 emptyBoard true false none none k
    emptyBoard_WF (by rw [emptyBoard_numEmpty]; omega)
  unfold generate_solved_board
  rw [hres]
  exact hWFr

theorem generate_solved_board_spec {g : RNG} (hg : GoodRNG g) (k : Nat) :
    WF (generate_solved_board g k) ∧ Full (generate_solved_board g k) ∧
      ConsistentBoard (generate_solved_board g k) := by
  obtain ⟨r, hres, hok⟩ := solve_complete_ff g 82 emptyBoard true none none k
    emptyBoard_WF emptyBoard_cons (fun _ => hg) (by rw [emptyBoard_numEmpty]; omega)
    ⟨canonBoard, canon_completion⟩
  obtain ⟨hF, hC, -⟩ := solve_sound_ff g 82 emptyBoard true none none k r
    emptyBoard_WF emptyBoard_cons (fun _ => hg) hres hok
  obtain ⟨r', hres', hWFr⟩ := solveSudoku_total g 82 emptyBoard true false none none k
    emptyBoard_WF (by rw [emptyBoard_numEmpty]; omega)
  rw [hres] at hres'
  obtain rfl : r = r' := by injection hres'
  unfold generate_solved_board
  rw [hres]
  exact ⟨hWFr, hF, hC⟩

/-- What the limit-2 probe computes: it returns with the board intact
and its verdict `len(solutions) == 1` holds exactly when the board has
exactly one completion; in particular an unsatisfiable board — just
like one with two or more completions — is reported non-unique. -/
theorem has_unique_solution_spec (g : RNG) {b : Board}
    (hWF : WF b) (hcons : ConsistentBoard b) :
    ∃ r, solveSudoku g 82 b false true (some []) (some 2) 0 = some r ∧ r.board = b ∧
      has_unique_solution g b = (solsLen r.sols == 1) ∧
      (has_unique_solution g b = true ↔ ∃! s, Completion s b) ∧
      ((¬ ∃ s, Completion s b) → has_unique_solution g b = false) := by
  obtain ⟨r, new, hres, hb, hs, hcomp, hnd, hlen, hok, hexh⟩ :=
    solve_findall g 82 b false [] 2 0 (by omega) hWF hcons (fun h => nomatch h)
      (by have := numEmpty_le b; omega) (by simp)
  simp only [List.nil_append, List.length_nil, Nat.zero_add] at hs hlen hok hexh
  have hsl : solsLen r.sols = new.length := by
    rw [hs]
    simp [solsLen]
  have hhu : has_unique_solution g b = (solsLen r.sols == 1) := by
    unfold has_unique_solution
    rw [hres]
  refine ⟨r, hres, hb, hhu, ?_, ?_⟩
  · rw [hhu, hsl]
    constructor
    · intro h1
      have hlen1 : new.length = 1 := by simpa using h1
      obtain ⟨s, rfl⟩ := List.length_eq_one.1 hlen1
      refine ⟨s, hcomp s (by simp), ?_⟩
      intro t ht
      have hmem := hexh (by omega) t ht
      simpa using hmem
    · rintro ⟨s, hsP, hsu⟩
      have h01 : new.length = 1 := by
        rcases Nat.lt_or_ge new.length 2 with hlt | hge
        · rcases Nat.lt_or_ge new.length 1 with hlt0 | hge1
          · exfalso
            have h0 : new = [] := List.length_eq_zero.1 (by omega)
            have := hexh (by omega) s hsP
            rw [h0] at this
            simp at this
          · omega
        · exfalso
          have h2 : new.length = 2 := by omega
          obtain ⟨a, a', rfl⟩ := List.length_eq_two.1 h2
          have ha : a = s := hsu a (hcomp a (by simp))
          have ha' : a' = s := hsu a' (hcomp a' (by simp))
          rw [List.nodup_cons] at hnd
          apply hnd.1
          rw [ha, ha']
          simp
      simpa using h01
  · intro hno
    cases hhu2 : has_unique_solution g b with
    | false => rfl
    | true =>
      exfalso
      rw [hhu, hsl] at hhu2
      have hlen1 : new.length = 1 := by simpa using hhu2
      obtain ⟨s, rfl⟩ := List.length_eq_one.1 hlen1
      exact hno ⟨s, hcomp s (by simp)⟩

/-! ### The removal loop -/

/-- Throughout the removal loop the board stays 9×9 and consistent, and
keeps `S` as its one and only completion: a clearing is kept only when
the limit-2 probe certifies a unique completion, which must then be `S`
(it completes the cleared board); a rejected clearing is undone by
restoring the backup. -/
theorem removeLoop_invariant (g : RNG) (d : String) (th : Nat → Bool) (tgt : Nat) :
    ∀ (cells : List (Nat × Nat)) (board : Board) (removed i : Nat) (S : Board),
      WF board → ConsistentBoard board → Completion S board →
      (∀ t, Completion t board → t = S) →
      WF (removeLoop g d th tgt board removed i cells).1 ∧
      ConsistentBoard (removeLoop g d th tgt board removed i cells).1 ∧
      Completion S (removeLoop g d th tgt board removed i cells).1 ∧
      (∀ t, Completion t (removeLoop g d th tgt board removed i cells).1 → t = S)
  | [], board, removed, i, S, hWF, hcons, hScomp, huniq => ⟨hWF, hcons, hScomp, huniq⟩
  | (r, c) :: rest, board, removed, i, S, hWF, hcons, hScomp, huniq => by
    by_cases h1 : tgt ≤ removed
    · simp only [removeLoop, if_pos h1]
      exact ⟨hWF, hcons, hScomp, huniq⟩
    · by_cases h2 : d = "hard" ∧ th i = true
      · simp only [removeLoop, if_neg h1, if_pos h2]
        exact ⟨hWF, hcons, hScomp, huniq⟩
      · simp only [removeLoop, if_neg h1, if_neg h2]
        have hWF1 : WF (setCell board r c 0) := WF_setCell hWF r c 0
        have hcons1 : ConsistentBoard (setCell board r c 0) :=
          ConsistentBoard_clear hWF hcons r c
        by_cases h3 : has_unique_solution g (setCell board r c 0) = true
        · rw [if_pos h3]
          have hScomp1 : Completion S (setCell board r c 0) :=
            ⟨hScomp.1, hScomp.2.1, hScomp.2.2.1, Extends_clear hWF r c hScomp.2.2.2⟩
          have huniq1 : ∀ t, Completion t (setCell board r c 0) → t = S := by
            obtain ⟨rr, -, -, -, hiff, -⟩ := has_unique_solution_spec g hWF1 hcons1
            obtain ⟨s0, -, hu0⟩ := hiff.1 h3
            intro t ht
            rw [hu0 t ht, ← hu0 S hScomp1]
          exact removeLoop_invariant g d th tgt rest (setCell board r c 0) (removed + 1)
            (i + 1) S hWF1 hcons1 hScomp1 huniq1
        · rw [if_neg h3, setCell_restore _ _ rfl]
          exact removeLoop_invariant g d th tgt rest board removed (i + 1) S
            hWF hcons hScomp huniq

theorem removeLoop_WF (g : RNG) (d : String) (th : Nat → Bool) (tgt : Nat) :
    ∀ (cells : List (Nat × Nat)) (board : Board) (removed i : Nat),
      WF board → WF (removeLoop g d th tgt board removed i cells).1
  | [], board, removed, i, hWF => hWF
  | (r, c) :: rest, board, removed, i, hWF => by
    by_cases h1 : tgt ≤ removed
    · simp only [removeLoop, if_pos h1]
      exact hWF
    · by_cases h2 : d = "hard" ∧ th i = true
      · simp only [removeLoop, if_neg h1, if_pos h2]
        exact hWF
      · simp only [removeLoop, if_neg h1, if_neg h2]
        by_cases h3 : has_unique_solution g (setCell board r c 0) = true
        · rw [if_pos h3]
          exact removeLoop_WF g d th tgt rest _ _ _ (WF_setCell hWF r c 0)
        · rw [if_neg h3, setCell_restore _ _ rfl]
          exact removeLoop_WF g d th tgt rest _ _ _ hWF

/-- The `squares_removed` counter only grows while strictly below the
target, so it never exceeds it. -/
theorem removeLoop_removed_le (g : RNG) (d : String) (th : Nat → Bool) (tgt : Nat) :
    ∀ (cells : List (Nat × Nat)) (board : Board) (removed i : Nat),
      removed ≤ tgt → (removeLoop g d th tgt board removed i cells).2 ≤ tgt
  | [], board, removed, i, hle => hle
  | (r, c) :: rest, board, removed, i, hle => by
    by_cases h1 : tgt ≤ removed
    · simp only [removeLoop, if_pos h1]
      exact hle
    · by_cases h2 : d = "hard" ∧ th i = true
      · simp only [removeLoop, if_neg h1, if_pos h2]
        exact hle
      · simp only [removeLoop, if_neg h1, if_neg h2]
        by_cases h3 : has_unique_solution g (setCell board r c 0) = true
        · rw [if_pos h3]
          exact removeLoop_removed_le g d th tgt rest _ _ _ (by omega)
        · rw [if_neg h3]
          exact removeLoop_removed_le g d th tgt rest _ _ _ hle

/-- The loop never touches a cell it does not visit. -/
theorem removeLoop_untouched (g : RNG) (d : String) (th : Nat → Bool) (tgt : Nat) :
    ∀ (cells : List (Nat × Nat)) (board : Board) (removed i : Nat) (r' c' : Nat),
      WF board → (r', c') ∉ cells →
      cell (removeLoop g d th tgt board removed i cells).1 r' c' = cell board r' c'
  | [], board, removed, i, r', c', hWF, hmem => rfl
  | (r, c) :: rest, board, removed, i, r', c', hWF, hmem => by
    have hmem_rest : (r', c') ∉ rest := fun h => hmem (List.mem_cons_of_mem _ h)
    have hne : ¬((r, c) = (r', c')) := fun h => hmem (h ▸ List.mem_cons_self _ _)
    by_cases h1 : tgt ≤ removed
    · simp only [removeLoop, if_pos h1]
    · by_cases h2 : d = "hard" ∧ th i = true
      · simp only [removeLoop, if_neg h1, if_pos h2]
      · simp only [removeLoop, if_neg h1, if_neg h2]
        have hcell1 : cell (setCell board r c 0) r' c' = cell board r' c' := by
          rcases Nat.lt_or_ge r 9 with hr | hr
          · rcases Nat.lt_or_ge c 9 with hc | hc
            · apply cell_setCell_other hWF hr hc
              intro hh
              exact hne (by rw [hh.1, hh.2])
            · rw [setCell_out_of_range hWF (Or.inr hc)]
          · rw [setCell_out_of_range hWF (Or.inl hr)]
        by_cases h3 : has_unique_solution g (setCell board r c 0) = true
        · rw [if_pos h3]
          rw [removeLoop_untouched g d th tgt rest _ _ _ r' c' (WF_setCell hWF r c 0) hmem_rest]
          exact hcell1
        · rw [if_neg h3, setCell_restore _ _ rfl]
          exact removeLoop_untouched g d th tgt rest _ _ _ r' c' hWF hmem_rest

/-- The early exit on the hard-difficulty time budget: the loop stops
and keeps exactly the clearings accepted so far. -/
theorem removeLoop_timeout (g : RNG) (th : Nat → Bool) (tgt : Nat)
    (board : Board) (removed i : Nat) (r c : Nat) (rest : List (Nat × Nat))
    (hlt : removed < tgt) (hth : th i = true) :
    removeLoop g "hard" th tgt board removed i ((r, c) :: rest) = (board, removed) := by
  simp only [removeLoop, if_neg (by omega : ¬ tgt ≤ removed)]
  rw [if_pos (show True ∧ th i = true from ⟨trivial, hth⟩)]

/-! ### `__init__`: the generated puzzle and its recorded solution -/

theorem gameInit_spec {g : RNG} (hg : GoodRNG g) (cells : List (Nat × Nat))
    (th : Nat → Bool) (d : String) :
    WF (gameInit g cells th d).1 ∧ ConsistentBoard (gameInit g cells th d).1 ∧
      Completion (gameInit g cells th d).2 (gameInit g cells th d).1 ∧
      (∀ t, Completion t (gameInit g cells th d).1 → t = (gameInit g cells th d).2) := by
  obtain ⟨hSWF, hSFull, hSCons⟩ := generate_solved_board_spec hg 0
  have hSS : Completion (generate_solved_board g 0) (generate_solved_board g 0) :=
    ⟨hSWF, hSFull, hSCons, Extends_refl _⟩
  have hSuniq : ∀ t, Completion t (generate_solved_board g 0) → t = generate_solved_board g 0 :=
    fun t ht => Completion_of_full hSWF hSFull ht
  obtain ⟨hobWF, hobCons, hobComp, hobUniq⟩ := removeLoop_invariant g d th
    (squaresToRemove d) cells (generate_solved_board g 0) 0 0 (generate_solved_board g 0)
    hSWF hSCons hSS hSuniq
  have hob : (gameInit g cells th d).1 =
      (removeLoop g d th (squaresToRemove d) (generate_solved_board g 0) 0 0 cells).1 := rfl
  rw [← hob] at hobWF hobCons hobComp hobUniq
  have hnum : numEmpty (gameInit g cells th d).1 < 82 := by
    have := numEmpty_le (gameInit g cells th d).1
    omega
  obtain ⟨r2, hres2, hok2⟩ := solve_complete_ff g 82 (gameInit g cells th d).1 false
    none none 0 hobWF hobCons (fun h => nomatch h) hnum ⟨_, hobComp⟩
  obtain ⟨hF2, hC2, hE2⟩ := solve_sound_ff g 82 (gameInit g cells th d).1 false
    none none 0 r2 hobWF hobCons (fun h => nomatch h) hres2 hok2
  obtain ⟨r2', hres2', hWF2⟩ := solveSudoku_total g 82 (gameInit g cells th d).1 false false
    none none 0 hobWF hnum
  rw [hres2] at hres2'
  obtain rfl : r2 = r2' := by injection hres2'
  have hsol : (gameInit g cells th d).2 = r2.board := by
    show (match solveSudoku g 82 (gameInit g cells th d).1 false false none none 0 with
      | some r => r.board
      | none => (gameInit g cells th d).1) = r2.board
    rw [hres2]
  have hcompsol : Completion (gameInit g cells th d).2 (gameInit g cells th d).1 := by
    rw [hsol]
    exact ⟨hWF2, hF2, hC2, hE2⟩
  refine ⟨hobWF, hobCons, hcompsol, ?_⟩
  intro t ht
  rw [hobUniq t ht, ← hobUniq _ hcompsol]

/-! ### The solver preserves the 9×9 shape -/

theorem solveLoop_WF {rec : Board → Option (List Board) → Nat → Option SRes}
    {fa : Bool} {lim : Option Nat} {row col : Nat}
    (hrec : ∀ b s kk r, WF b → rec b s kk = some r → WF r.board) :
    ∀ (nums : List Nat) (board : Board) (sols : Option (List Board)) (k : Nat) (r : SRes),
      WF board → solveLoop rec fa lim row col board sols k nums = some r → WF r.board
  | [], board, sols, k, r, hWF, hres => by
    simp only [solveLoop] at hres
    obtain rfl : (⟨false, board, sols, k⟩ : SRes) = r := by injection hres
    exact hWF
  | num :: rest, board, sols, k, r, hWF, hres => by
    simp only [solveLoop] at hres
    by_cases hv : is_valid_move board row col num = true
    · rw [if_pos hv] at hres
      cases hrr : rec (setCell board row col num) sols k with
      | none => simp [hrr] at hres
      | some rr =>
        simp only [hrr] at hres
        have hrrWF : WF rr.board := hrec _ _ _ _ (WF_setCell hWF row col num) hrr
        by_cases hok : (rr.ok && !fa) = true
        · rw [if_pos hok] at hres
          obtain rfl : (⟨true, rr.board, rr.sols, rr.k⟩ : SRes) = r := by injection hres
          exact hrrWF
        · rw [if_neg hok] at hres
          by_cases hlim : (fa && limitTruthy lim && decide (lim.getD 0 ≤ solsLen rr.sols)) = true
          · rw [if_pos hlim] at hres
            obtain rfl : (⟨true, setCell rr.board row col 0, rr.sols, rr.k⟩ : SRes) = r := by
              injection hres
            exact WF_setCell hrrWF row col 0
          · rw [if_neg hlim] at hres
            exact solveLoop_WF hrec rest _ _ _ r (WF_setCell hrrWF row col 0) hres
    · rw [if_neg hv] at hres
      exact solveLoop_WF hrec rest board sols k r hWF hres

theorem solve_WF (g : RNG) :
    ∀ (fuel : Nat) (b : Board) (rand fa : Bool) (sols : Option (List Board))
      (lim : Option Nat) (k : Nat) (r : SRes),
      WF b → solveSudoku g fuel b rand fa sols lim k = some r → WF r.board
  | 0, b, rand, fa, sols, lim, k, r, hWF, hres => by simp [solveSudoku] at hres
  | fuel + 1, b, rand, fa, sols, lim, k, r, hWF, hres => by
    simp only [solveSudoku] at hres
    cases hfe : find_empty_cell b with
    | none =>
      rw [hfe] at hres
      obtain rfl : (⟨true, b, if fa then appendSol sols b else sols, k⟩ : SRes) = r := by
        injection hres
      exact hWF
    | some p =>
      obtain ⟨row, col⟩ := p
      rw [hfe] at hres
      exact solveLoop_WF
        (fun b' s' kk' r' hWF' h' => solve_WF g fuel b' rand fa s' lim kk' r' hWF' h')
        _ b sols _ r hWF hres

/-! ### The claims -/

/-- C1: for every puzzle produced by the generator (any shuffle oracle,
any cell-visiting order, any clock behaviour), re-solving
`original_board` with the solver in find-all mode with limit 2 yields
exactly one solution, that unique solution is the recorded `solution`
attribute, and it agrees with `original_board` on every non-empty
cell. -/
theorem claim_C1 (g : RNG) (cells : List (Nat × Nat)) (th : Nat → Bool) (d : String)
    (hg : GoodRNG g) :
    ∃ r, solveSudoku g 82 (gameInit g cells th d).1 false true (some []) (some 2) 0 = some r ∧
      r.sols = some [(gameInit g cells th d).2] ∧
      r.board = (gameInit g cells th d).1 ∧
      Extends (gameInit g cells th d).2 (gameInit g cells th d).1 := by
  obtain ⟨hWF, hcons, hcomp, huniq⟩ := gameInit_spec hg cells th d
  obtain ⟨r, new, hres, hb, hs, hcompl, hnd, hlen, hok, hexh⟩ :=
    solve_findall g 82 (gameInit g cells th d).1 false [] 2 0 (by omega) hWF hcons
      (fun h => nomatch h) (by have := numEmpty_le (gameInit g cells th d).1; omega) (by simp)
  simp only [List.nil_append, List.length_nil, Nat.zero_add] at hs hlen hexh
  have hnew : new = [(gameInit g cells th d).2] := by
    rcases Nat.lt_or_ge new.length 2 with hlt | hge
    · rcases Nat.lt_or_ge new.length 1 with h0 | h1'
      · exfalso
        have hnil : new = [] := List.length_eq_zero.1 (by omega)
        have hmm := hexh (by omega) _ hcomp
        rw [hnil] at hmm
        simp at hmm
      · have h1 : new.length = 1 := by omega
        obtain ⟨a, rfl⟩ := List.length_eq_one.1 h1
        rw [huniq a (hcompl a (by simp))]
    · exfalso
      have h2 : new.length = 2 := by omega
      obtain ⟨a, a', rfl⟩ := List.length_eq_two.1 h2
      have ha := huniq a (hcompl a (by simp))
      have ha' := huniq a' (hcompl a' (by simp))
      rw [List.nodup_cons] at hnd
      exact hnd.1 (by rw [ha, ha']; simp)
  exact ⟨r, hres, by rw [hs, hnew], hb, hcomp.2.2.2⟩

/-- C2: whenever `solve_sudoku` returns `True` in find-first or
randomized mode (`find_all` off) on a 9×9 board whose non-zero entries
are mutually consistent, the final board is completely filled and every
row, column, and 3×3 block holds each digit 1–9 exactly once; in
particular every board produced by `generate_solved_board` satisfies
this. -/
theorem claim_C2 :
    (∀ (g : RNG) (fuel : Nat) (b : Board) (rand : Bool) (sols : Option (List Board))
      (lim : Option Nat) (k : Nat) (r : SRes),
      WF b → ConsistentBoard b → (rand = true → GoodRNG g) →
      solveSudoku g fuel b rand false sols lim k = some r → r.ok = true →
      Full r.board ∧ ValidSolved r.board) ∧
    ∀ (g : RNG) (k : Nat), GoodRNG g →
      Full (generate_solved_board g k) ∧ ValidSolved (generate_solved_board g k) := by
  constructor
  · intro g fuel b rand sols lim k r hWF hcons hrand hres hok
    obtain ⟨hF, hC, -⟩ := solve_sound_ff g fuel b rand sols lim k r hWF hcons hrand hres hok
    have hWFr : WF r.board := solve_WF g fuel b rand false sols lim k r hWF hres
    exact ⟨hF, ValidSolved_of_full hWFr hF hC⟩
  · intro g k hg
    obtain ⟨hWF, hF, hC⟩ := generate_solved_board_spec hg k
    exact ⟨hF, ValidSolved_of_full hWF hF hC⟩

/-- C4: if the solver returns `False`, the board after the call equals
the board before the call, in every mode; and inside the search, after
a failed branch the cell placed during that branch is reset to empty
before the next candidate is tried (the loop proceeds to the remaining
candidates on the original board). -/
theorem claim_C4 :
    (∀ (g : RNG) (fuel : Nat) (b : Board) (rand fa : Bool) (sols : Option (List Board))
        (lim : Option Nat) (k : Nat) (r : SRes),
      solveSudoku g fuel b rand fa sols lim k = some r → r.ok = false → r.board = b) ∧
    ∀ (rec : Board → Option (List Board) → Nat → Option SRes) (fa : Bool)
      (lim : Option Nat) (row col : Nat) (board : Board) (sols : Option (List Board))
      (k num : Nat) (rest : List Nat) (rr : SRes),
      cell board row col = 0 →
      is_valid_move board row col num = true →
      rec (setCell board row col num) sols k = some rr →
      rr.ok = false → rr.board = setCell board row col num →
      ¬((fa && limitTruthy lim && decide (lim.getD 0 ≤ solsLen rr.sols)) = true) →
      solveLoop rec fa lim row col board sols k (num :: rest) =
        solveLoop rec fa lim row col board rr.sols rr.k rest := by
  constructor
  · intro g fuel b rand fa sols lim k r hres hok
    exact (solve_restore g fuel b rand fa sols lim k r hres).1 hok
  · intro rec fa lim row col board sols k num rest rr hcell hv hrr hok hboard hlim
    rw [solveLoop_cons_valid hv hrr, if_neg (by rw [hok]; simp), if_neg hlim, hboard,
      setCell_restore _ _ hcell]

/-- C5: for every difficulty and every clock behaviour the generator
terminates with a 9×9 board (the removal pass is a single traversal of
the supplied cell list, so cells outside it are untouched), and for
difficulty "hard" an exceeded time budget stops the loop early, keeping
exactly the clearings accepted so far, with no error. -/
theorem claim_C5 (g : RNG) (cells : List (Nat × Nat)) (th : Nat → Bool) (d : String) :
    WF (generate_puzzle g cells th d) ∧
    (∀ r c, (r, c) ∉ cells →
      cell (generate_puzzle g cells th d) r c = cell (generate_solved_board g 0) r c) ∧
    (∀ (board : Board) (removed i r c : Nat) (rest : List (Nat × Nat)),
      removed < squaresToRemove d → d = "hard" → th i = true →
      removeLoop g d th (squaresToRemove d) board removed i ((r, c) :: rest)
        = (board, removed)) := by
  refine ⟨?_, ?_, ?_⟩
  · show WF (removeLoop g d th (squaresToRemove d) (generate_solved_board g 0) 0 0 cells).1
    exact removeLoop_WF g d th _ cells _ 0 0 (generate_solved_board_WF g 0)
  · intro r c hmem
    show cell (removeLoop g d th (squaresToRemove d) (generate_solved_board g 0) 0 0 cells).1 r c
      = cell (generate_solved_board g 0) r c
    exact removeLoop_untouched g d th _ cells _ 0 0 r c (generate_solved_board_WF g 0) hmem
  · intro board removed i r c rest hlt hd hth
    subst hd
    exact removeLoop_timeout g th _ board removed i r c rest hlt hth

/-- C6: the difficulty table maps easy to 43, medium to 51, hard to 62
cells to clear, any other difficulty string silently falls back to the
medium default 51, and the number of clearings the removal loop accepts
never exceeds that target. -/
theorem claim_C6 :
    squaresToRemove "easy" = 43 ∧ squaresToRemove "medium" = 51 ∧
    squaresToRemove "hard" = 62 ∧
    (∀ d, d ≠ "easy" → d ≠ "medium" → d ≠ "hard" → squaresToRemove d = 51) ∧
    ∀ (g : RNG) (d : String) (th : Nat → Bool) (cells : List (Nat × Nat))
      (board : Board) (i : Nat),
      (removeLoop g d th (squaresToRemove d) board 0 i cells).2 ≤ squaresToRemove d := by
  refine ⟨rfl, rfl, rfl, ?_, ?_⟩
  · intro d h1 h2 h3
    unfold squaresToRemove
    rw [if_neg h1, if_neg h2, if_neg h3]
  · intro g d th cells board i
    exact removeLoop_removed_le g d th _ cells board 0 i (by omega)

/-- C8: `find_empty_cell` returns `None` exactly when the 9×9 board has
no zero cell, and otherwise returns the first zero cell in row-major
scan order (all earlier positions in that order are non-zero). -/
theorem claim_C8 (b : Board) :
    (find_empty_cell b = none ↔ ∀ r, r < 9 → ∀ c, c < 9 → cell b r c ≠ 0) ∧
    ∀ r c, find_empty_cell b = some (r, c) →
      r < 9 ∧ c < 9 ∧ cell b r c = 0 ∧
      ∀ r' c', r' < 9 → c' < 9 → 9 * r' + c' < 9 * r + c → cell b r' c' ≠ 0 :=
  ⟨find_empty_cell_none_iff, fun _ _ h => find_empty_cell_some h⟩

/-- C10: `has_unique_solution` runs the limit-2 probe on a copy (the
probe hands the board back unchanged) and returns
`len(solutions) == 1`; this is `True` exactly when the board has one
and only one completion, so an unsatisfiable board is classified
`False`, exactly like a board with two or more completions. -/
theorem claim_C10 (g : RNG) (b : Board) (hWF : WF b) (hcons : ConsistentBoard b) :
    ∃ r, solveSudoku g 82 b false true (some []) (some 2) 0 = some r ∧
      has_unique_solution g b = (solsLen r.sols == 1) ∧
      r.board = b ∧
      (has_unique_solution g b = true ↔ ∃! s, Completion s b) ∧
      ((¬ ∃ s, Completion s b) → has_unique_solution g b = false) := by
  obtain ⟨r, hres, hb, hbeq, hiff, hno⟩ := has_unique_solution_spec g hWF hcons
  exact ⟨r, hres, hbeq, hb, hiff, hno⟩

/-- C7: for an empty cell the candidate calculator yields exactly the
digits 1–9 absent from the cell's row, column, and 3×3 block —
equivalently, exactly the digits that `is_valid_move` accepts there —
and for a non-empty cell the empty set; on a fully solved board every
cell's candidate set is therefore empty. -/
theorem claim_C7 (b : Board) (r c : Nat) (hr : r < 9) (hc : c < 9) :
    (cell b r c = 0 → ∀ d, d ∈ ((get_all_possible_marks b).getD r []).getD c ∅ ↔
      (1 ≤ d ∧ d ≤ 9 ∧ d ∉ rowList b r ∧ d ∉ colList b c ∧ d ∉ blockList b r c)) ∧
    (cell b r c = 0 → ∀ d, d ∈ ((get_all_possible_marks b).getD r []).getD c ∅ ↔
      (1 ≤ d ∧ d ≤ 9 ∧ is_valid_move b r c d = true)) ∧
    (cell b r c ≠ 0 → ((get_all_possible_marks b).getD r []).getD c ∅ = ∅) ∧
    (Full b → ((get_all_possible_marks b).getD r []).getD c ∅ = ∅) := by
  have hmarks : ((get_all_possible_marks b).getD r []).getD c ∅ =
      if cell b r c = 0 then
        ((Finset.Icc 1 9 \ (rowList b r).toFinset) \ (colList b c).toFinset)
          \ (blockList b r c).toFinset
      else ∅ := by
    unfold get_all_possible_marks
    rw [getD_map_range hr [], getD_map_range hc ∅]
  have hmem : cell b r c = 0 → ∀ d, d ∈ ((get_all_possible_marks b).getD r []).getD c ∅ ↔
      (1 ≤ d ∧ d ≤ 9 ∧ d ∉ rowList b r ∧ d ∉ colList b c ∧ d ∉ blockList b r c) := by
    intro h0 d
    rw [hmarks, if_pos h0]
    simp only [Finset.mem_sdiff, Finset.mem_Icc, List.mem_toFinset]
    tauto
  refine ⟨hmem, ?_, ?_, ?_⟩
  · intro h0 d
    rw [hmem h0 d, is_valid_move_iff]
  · intro h0
    rw [hmarks, if_neg h0]
  · intro hFull
    rw [hmarks, if_neg (hFull r hr c hc)]

/-! ### C3: the find-all return value -/

/-- An oracle that is never consulted (`randomize` off everywhere it is
used). -/
def constRNG : RNG := fun _ => []

/-- A board one cell short of the classic solved grid. -/
def oneEmptyBoard : Board := [
  [5, 3, 4, 6, 7, 8, 9, 1, 2],
  [6, 7, 2, 1, 9, 5, 3, 4, 8],
  [1, 9, 8, 3, 4, 2, 5, 6, 7],
  [8, 5, 9, 7, 6, 1, 4, 2, 3],
  [4, 2, 6, 8, 5, 3, 7, 9, 1],
  [7, 1, 3, 9, 2, 4, 8, 5, 6],
  [9, 6, 1, 5, 3, 7, 2, 8, 4],
  [2, 8, 7, 4, 1, 9, 6, 3, 5],
  [3, 4, 5, 2, 8, 6, 1, 7, 0]]

/-- Its unique completion. -/
def oneEmptySolved : Board := [
  [5, 3, 4, 6, 7, 8, 9, 1, 2],
  [6, 7, 2, 1, 9, 5, 3, 4, 8],
  [1, 9, 8, 3, 4, 2, 5, 6, 7],
  [8, 5, 9, 7, 6, 1, 4, 2, 3],
  [4, 2, 6, 8, 5, 3, 7, 9, 1],
  [7, 1, 3, 9, 2, 4, 8, 5, 6],
  [9, 6, 1, 5, 3, 7, 2, 8, 4],
  [2, 8, 7, 4, 1, 9, 6, 3, 5],
  [3, 4, 5, 2, 8, 6, 1, 7, 9]]

/-- C3 as stated is false: on this board the find-all search (limit 2)
runs to completion having collected exactly one solution — "a complete
solution search finishes with at least one solution found" — yet the
call returns `False`, not `True` (the board was not complete on entry
and the limit was never reached). -/
theorem claim_C3_counterexample :
    ∃ r, solveSudoku constRNG 82 oneEmptyBoard false true (some []) (some 2) 0 = some r ∧
      r.ok = false ∧ solsLen r.sols = 1 ∧ find_empty_cell oneEmptyBoard ≠ none :=
  ⟨⟨false, oneEmptyBoard, some [oneEmptySolved], 0⟩, by decide, rfl, by decide, by decide⟩

/-- C3 (amended): with `find_all=True`, a positive solution limit and a
supplied `solutions_list`, the call appends up to `limit` distinct full
solutions of the board (copied by value) to the list, and returns true
exactly when the limit is reached or the board was already complete on
entry; a completed exhaustive search that found at least one but fewer
than `limit` solutions returns `False`. -/
theorem claim_C3 (g : RNG) (fuel : Nat) (b : Board) (rand : Bool) (l : List Board)
    (m k : Nat) (hm : 1 ≤ m) (hWF : WF b) (hcons : ConsistentBoard b)
    (hrand : rand = true → GoodRNG g) (hfuel : numEmpty b < fuel) (hl : l.length < m) :
    ∃ r new, solveSudoku g fuel b rand true (some l) (some m) k = some r ∧
      r.sols = some (l ++ new) ∧ (∀ s ∈ new, Completion s b) ∧ new.Nodup ∧
      l.length + new.length ≤ m ∧
      (r.ok = true ↔ (find_empty_cell b = none ∨ l.length + new.length = m)) := by
  obtain ⟨r, new, hres, hb, hs, hcomp, hnd, hlen, hok, -⟩ :=
    solve_findall g fuel b rand l m k hm hWF hcons hrand hfuel hl
  exact ⟨r, new, hres, hs, hcomp, hnd, hlen, hok⟩

/-! ### C9: the two solver implementations agree -/

theorem appendSol_isSome (sols : Option (List Board)) (b : Board) :
    (appendSol sols b).isSome = sols.isSome := by
  cases sols <;> rfl

theorem solveLoop_sols_isSome {rec : Board → Option (List Board) → Nat → Option SRes}
    {fa : Bool} {lim : Option Nat} {row col : Nat}
    (hrec : ∀ b s kk r, rec b s kk = some r → r.sols.isSome = s.isSome) :
    ∀ (nums : List Nat) (board : Board) (sols : Option (List Board)) (k : Nat) (r : SRes),
      solveLoop rec fa lim row col board sols k nums = some r → r.sols.isSome = sols.isSome
  | [], board, sols, k, r, hres => by
    simp only [solveLoop] at hres
    obtain rfl : (⟨false, board, sols, k⟩ : SRes) = r := by injection hres
    rfl
  | num :: rest, board, sols, k, r, hres => by
    simp only [solveLoop] at hres
    by_cases hv : is_valid_move board row col num = true
    · rw [if_pos hv] at hres
      cases hrr : rec (setCell board row col num) sols k with
      | none => simp [hrr] at hres
      | some rr =>
        simp only [hrr] at hres
        have hrrS := hrec _ _ _ _ hrr
        by_cases hok : (rr.ok && !fa) = true
        · rw [if_pos hok] at hres
          obtain rfl : (⟨true, rr.board, rr.sols, rr.k⟩ : SRes) = r := by injection hres
          exact hrrS
        · rw [if_neg hok] at hres
          by_cases hlim : (fa && limitTruthy lim && decide (lim.getD 0 ≤ solsLen rr.sols)) = true
          · rw [if_pos hlim] at hres
            obtain rfl : (⟨true, setCell rr.board row col 0, rr.sols, rr.k⟩ : SRes) = r := by
              injection hres
            exact hrrS
          · rw [if_neg hlim] at hres
            rw [solveLoop_sols_isSome hrec rest _ _ _ r hres]
            exact hrrS
    · rw [if_neg hv] at hres
      exact solveLoop_sols_isSome hrec rest board sols k r hres

theorem solve_sols_isSome (g : RNG) :
    ∀ (fuel : Nat) (b : Board) (rand fa : Bool) (sols : Option (List Board))
      (lim : Option Nat) (k : Nat) (r : SRes),
      solveSudoku g fuel b rand fa sols lim k = some r → r.sols.isSome = sols.isSome
  | 0, b, rand, fa, sols, lim, k, r, hres => by simp [solveSudoku] at hres
  | fuel + 1, b, rand, fa, sols, lim, k, r, hres => by
    simp only [solveSudoku] at hres
    cases hfe : find_empty_cell b with
    | none =>
      rw [hfe] at hres
      obtain rfl : (⟨true, b, if fa then appendSol sols b else sols, k⟩ : SRes) = r := by
        injection hres
      show (if fa then appendSol sols b else sols).isSome = sols.isSome
      cases fa
      · rfl
      · simp only [if_true]
        exact appendSol_isSome sols b
    | some p =>
      obtain ⟨row, col⟩ := p
      rw [hfe] at hres
      exact solveLoop_sols_isSome
        (fun b' s' kk' r' h' => solve_sols_isSome g fuel b' rand fa s' lim kk' r' h')
        _ b sols _ r hres

theorem original_is_valid_move_eq (b : Board) (row col num : Nat) :
    original_is_valid_move b row col num = is_valid_move b row col num := rfl

theorem range'_GRID_eq_Digits : List.range' 1 GRID_SIZE = Digits := by decide

theorem solveLoop_eq_original
    {rec rec' : Board → Option (List Board) → Nat → Option SRes}
    {fa : Bool} {lim : Option Nat} {row col : Nat}
    (hrec_eq : ∀ b s kk, (fa = true → s.isSome = true) → rec b s kk = rec' b s kk)
    (hrecS : ∀ b s kk r, rec b s kk = some r → r.sols.isSome = s.isSome) :
    ∀ (nums : List Nat) (board : Board) (sols : Option (List Board)) (k : Nat),
      (fa = true → sols.isSome = true) →
      solveLoop rec fa lim row col board sols k nums =
        original_solveLoop rec' fa lim row col board sols k nums
  | [], board, sols, k, hsols => rfl
  | num :: rest, board, sols, k, hsols => by
    simp only [solveLoop, original_solveLoop, original_is_valid_move_eq]
    by_cases hv : is_valid_move board row col num = true
    · rw [if_pos hv, if_pos hv]
      rw [← hrec_eq (setCell board row col num) sols k hsols]
      cases hrr : rec (setCell board row col num) sols k with
      | none => rfl
      | some rr =>
        dsimp only
        have hrrS := hrecS _ _ _ _ hrr
        have hsols' : fa = true → rr.sols.isSome = true := by
          intro hfa
          rw [hrrS]
          exact hsols hfa
        have hcondB : (fa && limitTruthy lim && rr.sols.isSome
              && decide (lim.getD 0 ≤ solsLen rr.sols))
            = (fa && limitTruthy lim && decide (lim.getD 0 ≤ solsLen rr.sols)) := by
          cases hfa : fa with
          | false => simp
          | true =>
            rw [hsols' hfa]
            simp
        by_cases hok : (rr.ok && !fa) = true
        · rw [if_pos hok, if_pos hok]
        · rw [if_neg hok, if_neg hok, hcondB]
          by_cases hlim : (fa && limitTruthy lim && decide (lim.getD 0 ≤ solsLen rr.sols)) = true
          · rw [if_pos hlim, if_pos hlim]
          · rw [if_neg hlim, if_neg hlim]
            exact solveLoop_eq_original hrec_eq hrecS rest _ rr.sols rr.k hsols'
    · rw [if_neg hv, if_neg hv]
      exact solveLoop_eq_original hrec_eq hrecS rest board sols k hsols

/-- C9: `solve_sudoku` of src/sudoku.py and `_original_solve_sudoku` of
src/game.py compute the same function — same boolean, same final board,
same recorded solutions, same consumed shuffle draws — for every board,
every flag combination and limit, and the same sequence of shuffle
draws, whenever `solutions_list` is supplied in `find_all` mode (the
only difference in the code is `is not None` guards that then always
pass). -/
theorem claim_C9 (g : RNG) :
    ∀ (fuel : Nat) (b : Board) (rand fa : Bool) (sols : Option (List Board))
      (lim : Option Nat) (k : Nat),
      (fa = true → sols.isSome = true) →
      solveSudoku g fuel b rand fa sols lim k =
        original_solve_sudoku g fuel b rand fa sols lim k
  | 0, b, rand, fa, sols, lim, k, hsols => rfl
  | fuel + 1, b, rand, fa, sols, lim, k, hsols => by
    show (match find_empty_cell b with
      | none => some (SRes.mk true b (if fa then appendSol sols b else sols) k)
      | some (row, col) =>
        solveLoop (fun b' s kk => solveSudoku g fuel b' rand fa s lim kk)
          fa lim row col b sols (if rand then k + 1 else k)
          (if rand then g k else Digits)) =
      (match original_find_empty_cell b with
      | none => some (SRes.mk true b (if fa && sols.isSome then appendSol sols b else sols) k)
      | some (row, col) =>
        original_solveLoop (fun b' s kk => original_solve_sudoku g fuel b' rand fa s lim kk)
          fa lim row col b sols (if rand then k + 1 else k)
          (if rand then g k else List.range' 1 GRID_SIZE))
    rw [show original_find_empty_cell b = find_empty_cell b from rfl]
    cases hfe : find_empty_cell b with
    | none =>
      have : (if fa then appendSol sols b else sols)
          = (if fa && sols.isSome then appendSol sols b else sols) := by
        cases hfa : fa with
        | false => rfl
        | true =>
          rw [hsols hfa]
          rfl
      rw [this]
    | some p =>
      obtain ⟨row, col⟩ := p
      rw [range'_GRID_eq_Digits]
      exact solveLoop_eq_original
        (fun b' s' kk' hs' => claim_C9 g fuel b' rand fa s' lim kk' hs')
        (fun b' s' kk' r' h' => solve_sols_isSome g fuel b' rand fa s' lim kk' r' h')
        _ b sols _ hsols

/-! ### Concrete witnesses -/

/-- A degenerate shuffle oracle: every draw is `[1..9]` unshuffled —
a legal output of `random.shuffle`. -/
def idRNG : RNG := fun _ => Digits

theorem idRNG_good : GoodRNG idRNG := fun _ => List.Perm.refl _

/-- A board one cell short of a solved grid whose empty cell admits no
digit (1 is the missing row digit but sits in the column; the search
fails and restores the board). -/
def unsatBoard : Board := [
  [5, 3, 4, 6, 7, 8, 9, 1, 2],
  [6, 7, 2, 1, 9, 5, 3, 4, 8],
  [1, 9, 8, 3, 4, 2, 5, 6, 7],
  [8, 5, 9, 7, 6, 1, 4, 2, 3],
  [4, 2, 6, 8, 5, 3, 7, 9, 1],
  [7, 1, 3, 9, 2, 4, 8, 5, 6],
  [9, 6, 1, 5, 3, 7, 2, 8, 4],
  [2, 8, 7, 4, 1, 9, 6, 3, 5],
  [3, 4, 5, 2, 8, 6, 9, 7, 0]]

theorem claim_C1_witness :
    GoodRNG idRNG ∧
    ∃ r, solveSudoku idRNG 82 (gameInit idRNG [] (fun _ => false) "hard").1 false true
        (some []) (some 2) 0 = some r ∧
      r.sols = some [(gameInit idRNG [] (fun _ => false) "hard").2] ∧
      r.board = (gameInit idRNG [] (fun _ => false) "hard").1 ∧
      Extends (gameInit idRNG [] (fun _ => false) "hard").2
        (gameInit idRNG [] (fun _ => false) "hard").1 :=
  ⟨idRNG_good, claim_C1 idRNG [] (fun _ => false) "hard" idRNG_good⟩

theorem claim_C2_witness :
    GoodRNG idRNG ∧
    (Full (generate_solved_board idRNG 0) ∧ ValidSolved (generate_solved_board idRNG 0)) :=
  ⟨idRNG_good, claim_C2.2 idRNG 0 idRNG_good⟩

theorem claim_C3_witness :
    1 ≤ 2 ∧ WF oneEmptyBoard ∧ ConsistentBoard oneEmptyBoard ∧
    numEmpty oneEmptyBoard < 82 ∧ ([] : List Board).length < 2 ∧
    ∃ r new, solveSudoku constRNG 82 oneEmptyBoard false true (some []) (some 2) 0 = some r ∧
      r.sols = some ([] ++ new) ∧ (∀ s ∈ new, Completion s oneEmptyBoard) ∧ new.Nodup ∧
      ([] : List Board).length + new.length ≤ 2 ∧
      (r.ok = true ↔ (find_empty_cell oneEmptyBoard = none ∨
        ([] : List Board).length + new.length = 2)) :=
  ⟨by decide, by decide, by decide, by decide, by decide,
    claim_C3 constRNG 82 oneEmptyBoard false [] 2 0 (by decide) (by decide) (by decide)
      (fun h => nomatch h) (by decide) (by decide)⟩

theorem claim_C4_witness :
    (SRes.mk false unsatBoard none 0).board = unsatBoard ∧
    solveLoop (fun b _ _ => some (SRes.mk false b none 0)) false none 8 8 oneEmptyBoard
        none 0 [9] =
      solveLoop (fun b _ _ => some (SRes.mk false b none 0)) false none 8 8 oneEmptyBoard
        none 0 [] :=
  ⟨claim_C4.1 constRNG 82 unsatBoard false false none none 0 (SRes.mk false unsatBoard none 0)
      (by decide) rfl,
    claim_C4.2 (fun b _ _ => some (SRes.mk false b none 0)) false none 8 8 oneEmptyBoard
      none 0 9 [] (SRes.mk false (setCell oneEmptyBoard 8 8 9) none 0)
      (by decide) (by decide) rfl rfl rfl (by decide)⟩

theorem claim_C5_witness :
    0 < squaresToRemove "hard" ∧ ("hard" : String) = "hard" ∧ (fun _ : Nat => true) 0 = true ∧
    removeLoop idRNG "hard" (fun _ => true) (squaresToRemove "hard") canonBoard 0 0
        ((0, 0) :: []) = (canonBoard, 0) :=
  ⟨by decide, rfl, rfl,
    (claim_C5 idRNG ((0, 0) :: []) (fun _ => true) "hard").2.2 canonBoard 0 0 0 0 []
      (by decide) rfl rfl⟩

theorem claim_C6_witness :
    ("expert" : String) ≠ "easy" ∧ ("expert" : String) ≠ "medium" ∧
    ("expert" : String) ≠ "hard" ∧ squaresToRemove "expert" = 51 :=
  ⟨by decide, by decide, by decide,
    claim_C6.2.2.2.1 "expert" (by decide) (by decide) (by decide)⟩

theorem claim_C7_witness :
    (8 : Nat) < 9 ∧ cell oneEmptyBoard 8 8 = 0 ∧
    ∀ d, d ∈ ((get_all_possible_marks oneEmptyBoard).getD 8 []).getD 8 ∅ ↔
      (1 ≤ d ∧ d ≤ 9 ∧ is_valid_move oneEmptyBoard 8 8 d = true) :=
  ⟨by decide, by decide,
    (claim_C7 oneEmptyBoard 8 8 (by decide) (by decide)).2.1 (by decide)⟩

theorem claim_C8_witness :
    find_empty_cell oneEmptyBoard = some (8, 8) ∧
    (8 < 9 ∧ 8 < 9 ∧ cell oneEmptyBoard 8 8 = 0 ∧
      ∀ r' c', r' < 9 → c' < 9 → 9 * r' + c' < 9 * 8 + 8 → cell oneEmptyBoard r' c' ≠ 0) :=
  ⟨by decide, (claim_C8 oneEmptyBoard).2 8 8 (by decide)⟩

theorem claim_C9_witness :
    (true = true → (some ([] : List Board)).isSome = true) ∧
    solveSudoku idRNG 82 oneEmptyBoard false true (some []) (some 2) 0 =
      original_solve_sudoku idRNG 82 oneEmptyBoard false true (some []) (some 2) 0 :=
  ⟨fun _ => rfl,
    claim_C9 idRNG 82 oneEmptyBoard false true (some []) (some 2) 0 (fun _ => rfl)⟩

theorem claim_C10_witness :
    WF oneEmptyBoard ∧ ConsistentBoard oneEmptyBoard ∧
    ∃ r, solveSudoku constRNG 82 oneEmptyBoard false true (some []) (some 2) 0 = some r ∧
      has_unique_solution constRNG oneEmptyBoard = (solsLen r.sols == 1) ∧
      r.board = oneEmptyBoard ∧
      (has_unique_solution constRNG oneEmptyBoard = true ↔ ∃! s, Completion s oneEmptyBoard) ∧
      ((¬ ∃ s, Completion s oneEmptyBoard) →
        has_unique_solution constRNG oneEmptyBoard = false) :=
  ⟨by decide, by decide, claim_C10 constRNG oneEmptyBoard (by decide) (by decide)⟩

end Sudoku
